import Mathlib

/-!
Shallow embedding of `src/system.py` (Laplace-equation relaxation solver).

Conventions of the embedding:
* numpy float arrays become total functions `ℕ → ℕ → ℚ` (rational arithmetic
  stands in for IEEE floats; every claim below is about structural/bookkeeping
  behaviour — which cells get written and with which closed-form expression —
  not about rounding);
* the `Ns × Ns` grid is conceptual: functions are total and every statement is
  restricted to indices below the grid bound, mirroring numpy bounds;
* the randomised starting vector `np.random.random` is an arbitrary parameter
  `r : ℕ → ℚ`;
* `np.linalg.norm` (Euclidean norm) is modelled exactly, over `ℝ`, which makes
  the convergence test noncomputable; the iteration loop itself is a generic
  computable recursion over a boolean stopping test;
* `np.linalg.inv` is applied in the source to the diagonal matrix `D` (Jacobi)
  and to `L + D` (Gauss-Seidel).  For `D` the inverse is the reciprocal
  diagonal, which we define directly and certify by `Dmat_mul_DmatInv`.  For
  Gauss-Seidel the inverse `(L+D)⁻¹` is an opaque parameter `G` of the sweep:
  no claim below depends on its entries, only on the shape of the update
  `x ← T·x + c` followed by re-pinning of source cells.
-/

namespace LaplaceRelax

/-- The three aligned grid arrays owned by both `Shape` and `System` in the
source: `self.potentials` (float), `self.sources` (bool),
`self.source_potentials` (float). -/
structure GridArrays where
  potentials : ℕ → ℕ → ℚ
  sources : ℕ → ℕ → Bool
  source_potentials : ℕ → ℕ → ℚ

/-- Freshly allocated `np.zeros` arrays. -/
def zeroArrays : GridArrays :=
  { potentials := fun _ _ => 0
    sources := fun _ _ => false
    source_potentials := fun _ _ => 0 }

/-- Pointwise update of a two-dimensional array at one cell
(`arr[i, j] = v`). -/
def upd2 {α : Type} (f : ℕ → ℕ → α) (i j : ℕ) (v : α) : ℕ → ℕ → α :=
  fun a b => if a = i ∧ b = j then v else f a b

/-- Body of the point-source branch of `Shape.add_source`: mark one grid cell
as a source with potential `p` (`self.potentials[c] = p`,
`self.sources[c] = True`, `self.source_potentials[c] = p`). -/
def markAt (p : ℚ) (c : ℕ × ℕ) (g : GridArrays) : GridArrays :=
  { potentials := upd2 g.potentials c.1 c.2 p
    sources := upd2 g.sources c.1 c.2 true
    source_potentials := upd2 g.source_potentials c.1 c.2 p }

/-- `np.where(row == True)[0]` of `Shape.fill`: the ascending list of marked
column indices of row `i`. -/
def rowMarked (n : ℕ) (g : GridArrays) (i : ℕ) : List ℕ :=
  (List.range n).filter (fun j => g.sources i j)

/-- The inner write loop of `Shape.fill`: mark every listed column of row `i`
with potential `p`. -/
def writeCellsRow (p : ℚ) (i : ℕ) (cols : List ℕ) (g : GridArrays) : GridArrays :=
  cols.foldl (fun s j => markAt p (i, j) s) g

/-- `indices[0]` of `Shape.fill` (first marked column; 0 as the numpy
out-of-range placeholder, only read when at least two cells are marked). -/
def firstMarked : List ℕ → ℕ
  | [] => 0
  | a :: _ => a

/-- `indices[-1]` of `Shape.fill` (last marked column). -/
def lastMarked : List ℕ → ℕ
  | [] => 0
  | [a] => a
  | _ :: b :: t => lastMarked (b :: t)

/-- One row of `Shape.fill`: if the row has at least two marked cells, write
potential `p` into every column strictly between the first and the last marked
one (`range(min_index + 1, max_index)`). -/
def fillRow (n : ℕ) (p : ℚ) (i : ℕ) (g : GridArrays) : GridArrays :=
  if 2 ≤ (rowMarked n g i).length then
    writeCellsRow p i
      (List.range' (firstMarked (rowMarked n g i) + 1)
        (lastMarked (rowMarked n g i) - (firstMarked (rowMarked n g i) + 1))) g
  else g

/-- `Shape.fill`: the row loop `for i, row in enumerate(self.sources)`. -/
def fillOp (n : ℕ) (p : ℚ) (g : GridArrays) : GridArrays :=
  (List.range n).foldl (fun s i => fillRow n p i s) g

/-- The primitive mutations a `Shape` constructor performs on its own arrays:
point marks (each `add_source(origin)` call rasterising the outline resolves,
through `find_closest_gridpoint`, to marking one grid cell) and row-wise
fills.  The floating-point geometry choosing WHICH cells an outline marks is
the external collaborator; it is captured by the concrete list of operations. -/
inductive ShapeOp where
  | mark : ℕ × ℕ → ShapeOp
  | fill : ShapeOp

/-- Apply one shape-construction operation. -/
def applyOp (n : ℕ) (p : ℚ) (g : GridArrays) : ShapeOp → GridArrays
  | ShapeOp.mark c => markAt p c g
  | ShapeOp.fill => fillOp n p g

/-- Arrays of a `Shape` built from freshly zeroed arrays by a sequence of
construction operations, all using the shape's single potential `p`. -/
def shapeBuild (n : ℕ) (p : ℚ) (ops : List ShapeOp) : GridArrays :=
  ops.foldl (applyOp n p) zeroArrays

/-- A `Shape` instance: grid dimension `Ns` (stored exactly as passed, an
integer), its fixed potential, and its three arrays. -/
structure Shape where
  Ns : ℤ
  potential : ℚ
  arr : GridArrays

/-- `sh` is a state the `Shape` class can actually produce: its arrays are the
result of some sequence of point marks and fills with its own potential. -/
def IsShape (sh : Shape) : Prop :=
  ∃ ops : List ShapeOp, sh.arr = shapeBuild sh.Ns.natAbs sh.potential ops

/-- Invariant of every constructed shape: marked cells carry the shape's
potential in both float arrays, unmarked cells carry zero. -/
def ShapeFaithful (p : ℚ) (g : GridArrays) : Prop :=
  ∀ i j, (g.sources i j = true → g.potentials i j = p ∧ g.source_potentials i j = p) ∧
         (g.sources i j = false → g.potentials i j = 0 ∧ g.source_potentials i j = 0)

/-- A `System` instance: stored grid dimension (exactly the integer passed to
the constructor), the three grid arrays, plus the solver-built stencil matrix
`self.A` and boundary bookkeeping `self.boundary_conditions` (absent before
the first solve; modelled as zero/empty placeholders). -/
structure SystemState where
  Ns : ℤ
  arr : GridArrays
  A : ℕ → ℕ → ℚ
  bc : ℕ → List (ℤ × ℤ)

/-- A freshly constructed system for integer argument `z`: arrays are zeroed
(`np.zeros`); for a negative `z`, numpy's `mgrid` interprets the complex step
through its absolute value, so the allocated arrays have side `z.natAbs`. -/
def mkSystem (z : ℤ) : SystemState :=
  { Ns := z
    arr := zeroArrays
    A := fun _ _ => 0
    bc := fun _ => [] }

/-- Dynamic type of the constructor argument: a Python `int`, or a value of
any other (non-`int`) runtime type such as a `float`, which the source's
`assert type(Ns) == int` rejects. -/
inductive PyNum where
  | int : ℤ → PyNum
  | float : ℚ → PyNum

/-- `System.__init__`: the `assert type(Ns) == int` raises for non-integers;
`self.h = 1. / Ns` raises `ZeroDivisionError` for `Ns = 0`; every other
integer (positive or negative) succeeds and allocates zeroed arrays. -/
def systemNew : PyNum → Except String SystemState
  | PyNum.float _ => Except.error "Ns should be an integer"
  | PyNum.int z =>
      if z = 0 then Except.error "ZeroDivisionError"
      else Except.ok (mkSystem z)

/-- Whether an `Except` result is a success. -/
def exceptIsOk : Except String SystemState → Bool
  | Except.ok _ => true
  | Except.error _ => false

/-- `System.add`: element-wise accumulation of the shape's arrays onto the
system's (`+=` on the float arrays is addition; `+=` on the boolean mask is
logical or). -/
def systemAdd (sys : SystemState) (sh : Shape) : SystemState :=
  { sys with arr :=
    { potentials := fun i j => sys.arr.potentials i j + sh.arr.potentials i j
      sources := fun i j => sys.arr.sources i j || sh.arr.sources i j
      source_potentials := fun i j =>
        sys.arr.source_potentials i j + sh.arr.source_potentials i j } }

/-- Resolved call shape of `Shape.add_source` when positional size arguments
are present: the `shape` keyword (default `"rectangle"`), the number of
positional size arguments, and the `filled` keyword (default `True`). -/
structure AddSourceCall where
  shape : String
  nargs : ℕ
  filled : Bool

/-- Mark every cell of a rasterised outline (each point of the outline is one
recursive `add_source(coords)` point call). -/
def applyMarks (p : ℚ) (cells : List (ℕ × ℕ)) (g : GridArrays) : GridArrays :=
  cells.foldl (fun s c => markAt p c s) g

/-- `Shape.add_source` dispatch.  `pointCell` is the grid cell
`find_closest_gridpoint(origin)` resolves to; `outline` is the list of cells
the rectangle/circle perimeter rasterisation marks (external geometry).  The
returned boolean records whether the `not_implemented_message` diagnostic was
printed.  Note the source prints that diagnostic only in the wrong-argument-
count branches of `"rectangle"` and `"circle"`; any other shape string falls
through both `if` statements silently. -/
def addSource (n : ℕ) (p : ℚ) (pointCell : ℕ × ℕ) (outline : List (ℕ × ℕ))
    (call : AddSourceCall) (g : GridArrays) : GridArrays × Bool :=
  if call.nargs = 0 then (markAt p pointCell g, false)
  else if call.shape = "rectangle" then
    if call.nargs = 2 then
      ((if call.filled then fillOp n p (applyMarks p outline g)
        else applyMarks p outline g), false)
    else (g, true)
  else if call.shape = "circle" then
    if call.nargs = 1 then
      ((if call.filled then fillOp n p (applyMarks p outline g)
        else applyMarks p outline g), false)
    else (g, true)
  else (g, false)

/-- `System.create_method_matrix` for grid side `n`: the `n² × n²` stencil
matrix.  Diagonal entries are `-4`; for each flattened row `i` with grid
coordinates `coord1 = i / n` (the source computes `int(float(i) / Ns)`, exact
integer division for all realistic sizes) and `coord2 = i % n`, each in-bounds
cardinal neighbour contributes an off-diagonal `+1`:
column `i - 1` when `coord2 - 1 ≥ 0`, column `i + 1` when
`coord2 + 1 ≤ n - 1`, column `i - n` when `coord1 - 1 ≥ 0`, and column
`i + n` when `coord1 + 1 ≤ n - 1`; out-of-bounds neighbours are skipped. -/
def Amatrix (n : ℕ) (i j : ℕ) : ℚ :=
  if i = j then -4
  else if (j + 1 = i ∧ i % n ≠ 0) ∨ (j = i + 1 ∧ i % n + 2 ≤ n)
        ∨ (j + n = i ∧ n ≤ i) ∨ (j = i + n ∧ i / n + 2 ≤ n) then 1
  else 0

/-- The per-row list `boundaries_row` of `create_method_matrix`: the
out-of-bounds neighbour coordinates, in the source's iteration order. -/
def bcRow (n : ℕ) (i : ℕ) : List (ℤ × ℤ) :=
  let c1 : ℤ := (i / n : ℕ)
  let c2 : ℤ := (i % n : ℕ)
  ([(c1, c2 - 1), (c1, c2 + 1), (c1 - 1, c2), (c1 + 1, c2)]).filter
    (fun q => !(0 ≤ q.1 ∧ q.1 < (n : ℤ) ∧ 0 ≤ q.2 ∧ q.2 < (n : ℤ) : Bool))

/-- `np.diagonal(self.A)`: the diagonal vector `D` (every entry `-4`). -/
def Ddiag (n : ℕ) (k : ℕ) : ℚ := Amatrix n k k

/-- `np.diag(np.diag(self.A))`: the diagonal matrix `D`. -/
def Dmat (n : ℕ) (i j : ℕ) : ℚ := if i = j then Ddiag n i else 0

/-- `np.linalg.inv(D)` for the diagonal matrix `D`: the reciprocal diagonal.
Certified as the two-sided inverse by `Dmat_mul_DmatInv` below. -/
def DmatInv (n : ℕ) (i j : ℕ) : ℚ := if i = j then (Ddiag n i)⁻¹ else 0

/-- `np.tril(self.A, k=-1)`: strictly lower triangle `L`. -/
def Lmat (n : ℕ) (i j : ℕ) : ℚ := if j < i then Amatrix n i j else 0

/-- `np.triu(self.A, k=1)`: strictly upper triangle `U`. -/
def Umat (n : ℕ) (i j : ℕ) : ℚ := if i < j then Amatrix n i j else 0

/-- `b = np.zeros(N)`: the right-hand-side vector, all-zero throughout. -/
def bvec : ℕ → ℚ := fun _ => 0

/-- Dense `N × N` matrix product restricted to the first `N` indices. -/
def matMulQ (N : ℕ) (M1 M2 : ℕ → ℕ → ℚ) : ℕ → ℕ → ℚ :=
  fun i j => ∑ m ∈ Finset.range N, M1 i m * M2 m j

/-- Dense matrix-vector product restricted to the first `N` indices. -/
def matVecQ (N : ℕ) (M : ℕ → ℕ → ℚ) (x : ℕ → ℚ) : ℕ → ℚ :=
  fun i => ∑ j ∈ Finset.range N, M i j * x j

/-- Jacobi iteration matrix `T = -np.dot(D_inv, L + U)`. -/
def Tjac (n : ℕ) : ℕ → ℕ → ℚ :=
  fun i j => -(matMulQ (n ^ 2) (DmatInv n) (fun a b => Lmat n a b + Umat n a b) i j)

/-- The matrix part of one Jacobi sweep:
`x_new = np.dot(T, x) + np.dot(D_inv, b)`. -/
def jacobiRaw (n : ℕ) (x : ℕ → ℚ) : ℕ → ℚ :=
  fun k => matVecQ (n ^ 2) (Tjac n) x k + matVecQ (n ^ 2) (DmatInv n) bvec k

/-- One full Jacobi sweep: the matrix update from the old vector, followed by
the re-pinning `x[sources] = orig_x[sources]`. -/
def jacobiSweep (n : ℕ) (srcs : ℕ → Bool) (orig : ℕ → ℚ) (x : ℕ → ℚ) : ℕ → ℚ :=
  fun k => if srcs k then orig k else jacobiRaw n x k

/-- Gauss-Seidel iteration matrix `T = -np.dot(G, U)` where `G` stands for
`np.linalg.inv(L + D)`. -/
def Tgs (n : ℕ) (G : ℕ → ℕ → ℚ) : ℕ → ℕ → ℚ :=
  fun i j => -(matMulQ (n ^ 2) G (Umat n) i j)

/-- One full Gauss-Seidel sweep: `x = np.dot(T, x) + np.dot(G, b)` followed by
the re-pinning `x[sources] = orig_x[sources]`. -/
def gaussSweep (n : ℕ) (G : ℕ → ℕ → ℚ) (srcs : ℕ → Bool) (orig : ℕ → ℚ)
    (x : ℕ → ℚ) : ℕ → ℚ :=
  fun k => if srcs k then orig k
           else matVecQ (n ^ 2) (Tgs n G) x k + matVecQ (n ^ 2) G bvec k

/-- The SOR pointwise cell update of `SOR_sub_func`:
`x[k] = (1 - w) * x[k] + (w / D[k]) * (b[k] - s1 - s2)` with
`s1 = Σ_{j<k} L[k,j]·x[j]` and `s2 = Σ_{k<j<N} U[k,j]·x[j]`, both read from
the vector `x` as it currently stands. -/
def sorCellUpdate (n : ℕ) (w : ℚ) (x : ℕ → ℚ) (k : ℕ) : ℚ :=
  (1 - w) * x k + (w / Ddiag n k) *
    (bvec k - (∑ j ∈ Finset.range k, Lmat n k j * x j)
            - (∑ j ∈ Finset.Ico (k + 1) (n ^ 2), Umat n k j * x j))

/-- State of the in-place SOR sweep after the cells `k = 0, …, m-1` have been
visited in increasing order: a visited source cell is skipped (`continue`),
any other visited cell is overwritten with `sorCellUpdate` applied to the
current in-progress vector. -/
def sorSweepAux (n : ℕ) (w : ℚ) (srcs : ℕ → Bool) (x : ℕ → ℚ) : ℕ → ℕ → ℚ
  | 0 => x
  | m + 1 =>
      if srcs m then sorSweepAux n w srcs x m
      else Function.update (sorSweepAux n w srcs x m) m
             (sorCellUpdate n w (sorSweepAux n w srcs x m) m)

/-- One full SOR sweep (`for k in range(N)` of `SOR_sub_func`). -/
def sorSweep (n : ℕ) (w : ℚ) (srcs : ℕ → Bool) (x : ℕ → ℚ) : ℕ → ℚ :=
  sorSweepAux n w srcs x (n ^ 2)

/-- `np.linalg.norm` of the first `N` entries: the Euclidean norm. -/
noncomputable def euclNorm (N : ℕ) (x : ℕ → ℚ) : ℝ :=
  Real.sqrt (∑ j ∈ Finset.range N, ((x j : ℝ)) ^ 2)

/-- The norm-delta stopping condition shared by all three solvers:
`abs(initial_norm - final_norm) < tol` where `initial_norm` is taken before
the sweep and `final_norm` after it. -/
def normStop (N : ℕ) (tol : ℚ) (x x' : ℕ → ℚ) : Prop :=
  |euclNorm N x - euclNorm N x'| < (tol : ℝ)

/-- Boolean form of the stopping condition (classically decided, since the
real comparison has no algorithmic content here). -/
noncomputable def normStopB (N : ℕ) (tol : ℚ) (x x' : ℕ → ℚ) : Bool :=
  @decide (normStop N tol x x') (Classical.propDecidable _)

/-- The shared solver loop `for i in range(max_iter): … if diff < tol: break`:
run up to `fuel` complete sweeps of `f`, stopping right after the first sweep
whose stopping test `s` (comparing the vectors before and after that sweep)
succeeds. -/
def relaxLoop (f : (ℕ → ℚ) → ℕ → ℚ) (s : (ℕ → ℚ) → (ℕ → ℚ) → Bool) :
    ℕ → (ℕ → ℚ) → ℕ → ℚ
  | 0, x => x
  | fuel + 1, x => if s x (f x) then f x else relaxLoop f s fuel (f x)

/-- `array.reshape(-1)` of an `n × n` array: row-major flattening. -/
def flat2 {α : Type} (n : ℕ) (f : ℕ → ℕ → α) : ℕ → α :=
  fun k => f (k / n) (k % n)

/-- `x.reshape(Ns, -1)`: unflattening a vector back to the grid. -/
def unflat2 {α : Type} (n : ℕ) (x : ℕ → α) : ℕ → ℕ → α :=
  fun i j => x (i * n + j)

/-- The flattened source mask `self.sources.reshape(-1)`. -/
def flatSources (sys : SystemState) : ℕ → Bool :=
  flat2 sys.Ns.toNat sys.arr.sources

/-- The flattened potential field at solve entry
(`x = self.potentials.reshape(-1); orig_x = x.copy()`). -/
def flatPot (sys : SystemState) : ℕ → ℚ :=
  flat2 sys.Ns.toNat sys.arr.potentials

/-- The flattened source-potentials array. -/
def flatSP (sys : SystemState) : ℕ → ℚ :=
  flat2 sys.Ns.toNat sys.arr.source_potentials

/-- Randomised initial vector with source cells immediately re-pinned:
`x = np.random.random(...); x[sources] = orig_x[sources]`. -/
def pinInit (srcs : ℕ → Bool) (orig r : ℕ → ℚ) : ℕ → ℚ :=
  fun k => if srcs k then orig k else r k

/-- The final flattened vector computed by `System.jacobi` with random draw
`r`. -/
noncomputable def jacobiX (sys : SystemState) (r : ℕ → ℚ) (tol : ℚ) (mi : ℕ) : ℕ → ℚ :=
  relaxLoop (jacobiSweep sys.Ns.toNat (flatSources sys) (flatPot sys))
    (normStopB (sys.Ns.toNat ^ 2) tol) mi
    (pinInit (flatSources sys) (flatPot sys) r)

/-- `System.jacobi`: rebuilds `A` (and the boundary bookkeeping), iterates,
and writes the reshaped result back over `self.potentials`. -/
noncomputable def jacobiSolve (sys : SystemState) (r : ℕ → ℚ) (tol : ℚ) (mi : ℕ) :
    SystemState :=
  { Ns := sys.Ns
    arr := { potentials := unflat2 sys.Ns.toNat (jacobiX sys r tol mi)
             sources := sys.arr.sources
             source_potentials := sys.arr.source_potentials }
    A := Amatrix sys.Ns.toNat
    bc := bcRow sys.Ns.toNat }

/-- The final flattened vector computed by `System.gauss_seidel`, with `G`
standing for `np.linalg.inv(L + D)`. -/
noncomputable def gaussX (sys : SystemState) (G : ℕ → ℕ → ℚ) (r : ℕ → ℚ)
    (tol : ℚ) (mi : ℕ) : ℕ → ℚ :=
  relaxLoop (gaussSweep sys.Ns.toNat G (flatSources sys) (flatPot sys))
    (normStopB (sys.Ns.toNat ^ 2) tol) mi
    (pinInit (flatSources sys) (flatPot sys) r)

/-- `System.gauss_seidel`. -/
noncomputable def gaussSolve (sys : SystemState) (G : ℕ → ℕ → ℚ) (r : ℕ → ℚ)
    (tol : ℚ) (mi : ℕ) : SystemState :=
  { Ns := sys.Ns
    arr := { potentials := unflat2 sys.Ns.toNat (gaussX sys G r tol mi)
             sources := sys.arr.sources
             source_potentials := sys.arr.source_potentials }
    A := Amatrix sys.Ns.toNat
    bc := bcRow sys.Ns.toNat }

/-- The final flattened vector computed by `System.SOR` with weight `w`. -/
noncomputable def sorX (sys : SystemState) (w : ℚ) (r : ℕ → ℚ) (tol : ℚ)
    (mi : ℕ) : ℕ → ℚ :=
  relaxLoop (sorSweep sys.Ns.toNat w (flatSources sys))
    (normStopB (sys.Ns.toNat ^ 2) tol) mi
    (pinInit (flatSources sys) (flatPot sys) r)

/-- `System.SOR`. -/
noncomputable def sorSolve (sys : SystemState) (w : ℚ) (r : ℕ → ℚ) (tol : ℚ)
    (mi : ℕ) : SystemState :=
  { Ns := sys.Ns
    arr := { potentials := unflat2 sys.Ns.toNat (sorX sys w r tol mi)
             sources := sys.arr.sources
             source_potentials := sys.arr.source_potentials }
    A := Amatrix sys.Ns.toNat
    bc := bcRow sys.Ns.toNat }

/-- Number of off-diagonal `+1` entries of row `i` of the stencil matrix,
counted over the matrix columns `0 ≤ j < n²`. -/
def offDiagOnes (n : ℕ) (i : ℕ) : ℕ :=
  ((Finset.range (n ^ 2)).filter (fun j => j ≠ i ∧ Amatrix n i j = 1)).card

/-- A grid coordinate pair lies inside the `n × n` grid. -/
def inBoundsZ (n : ℕ) (q : ℤ × ℤ) : Bool :=
  decide (0 ≤ q.1 ∧ q.1 < (n : ℤ) ∧ 0 ≤ q.2 ∧ q.2 < (n : ℤ))

/-- The four cardinal neighbours of a grid cell, as integer coordinates. -/
def cardinalNeighbors (r c : ℤ) : List (ℤ × ℤ) :=
  [(r, c - 1), (r, c + 1), (r - 1, c), (r + 1, c)]

/-- Number of in-bounds cardinal neighbours of the cell `(r, c)`. -/
def neighborCount (n : ℕ) (r c : ℤ) : ℕ :=
  ((cardinalNeighbors r c).filter (inBoundsZ n)).length

/-- Indicator form of the neighbour count of flattened cell `i`, matching the
four guard conditions of `create_method_matrix`. -/
def nbrInd (n i : ℕ) : ℕ :=
  (if i % n ≠ 0 then 1 else 0) + (if i % n + 2 ≤ n then 1 else 0) +
  (if n ≤ i then 1 else 0) + (if i / n + 2 ≤ n then 1 else 0)

/-- The cell `(r, c)` is an interior cell of the `n × n` grid. -/
def isInterior (n r c : ℕ) : Prop := 0 < r ∧ r + 1 < n ∧ 0 < c ∧ c + 1 < n

/-- The cell `(r, c)` is a corner cell of the `n × n` grid. -/
def isCorner (n r c : ℕ) : Prop := (r = 0 ∨ r + 1 = n) ∧ (c = 0 ∨ c + 1 = n)

/-- The cell `(r, c)` is an edge (boundary but not corner) cell. -/
def isEdge (n r c : ℕ) : Prop :=
  ((r = 0 ∨ r + 1 = n) ∨ (c = 0 ∨ c + 1 = n)) ∧ ¬ isCorner n r c

/-- The potential field agrees with the source-potentials array everywhere on
the grid — the state of every system populated purely by `add` calls (both
start from zero and each shape contributes equal increments to both arrays). -/
def EqPotSP (n : ℕ) (g : GridArrays) : Prop :=
  ∀ i j, i < n → j < n → g.potentials i j = g.source_potentials i j

/-- The source-cell invariant: wherever the mask is set, the potential field
agrees with the source-potentials array. -/
def PinnedInv (n : ℕ) (g : GridArrays) : Prop :=
  ∀ i j, i < n → j < n → g.sources i j = true →
    g.potentials i j = g.source_potentials i j

/-- Stopping behaviour of one solver loop: the returned vector is reached by
some whole number `nn` of complete sweeps (never a partial sweep), `nn` is at
most `mi`, no earlier sweep already met the norm-delta test, and if the loop
stopped before exhausting `mi` then the final sweep met the test. -/
def NormDeltaRun (N : ℕ) (tol : ℚ) (mi : ℕ) (f : (ℕ → ℚ) → ℕ → ℚ) (x0 : ℕ → ℚ) : Prop :=
  ∃ nn, 1 ≤ nn ∧ nn ≤ mi ∧ relaxLoop f (normStopB N tol) mi x0 = f^[nn] x0 ∧
    (∀ m, m + 1 < nn → ¬ normStop N tol (f^[m] x0) (f^[m + 1] x0)) ∧
    (nn < mi → normStop N tol (f^[nn - 1] x0) (f^[nn] x0))

/-- A point-source shape on the `1 × 1` grid (concrete instance for
counterexamples and witnesses). -/
def ptShape (p : ℚ) : Shape :=
  { Ns := 1, potential := p, arr := shapeBuild 1 p [ShapeOp.mark (0, 0)] }

/-- Full statement of the stopping-rule property for one system and one set of
solver parameters: each of the three methods' loops satisfies `NormDeltaRun`
(with the Euclidean norm-delta test), and each method stores exactly the
loop's final vector, reshaped, as the new potential field. -/
def StoppingRuleAll (tol : ℚ) (mi : ℕ) (sys : SystemState) (r : ℕ → ℚ)
    (w : ℚ) (G : ℕ → ℕ → ℚ) : Prop :=
  NormDeltaRun (sys.Ns.toNat ^ 2) tol mi
    (jacobiSweep sys.Ns.toNat (flatSources sys) (flatPot sys))
    (pinInit (flatSources sys) (flatPot sys) r) ∧
  NormDeltaRun (sys.Ns.toNat ^ 2) tol mi
    (gaussSweep sys.Ns.toNat G (flatSources sys) (flatPot sys))
    (pinInit (flatSources sys) (flatPot sys) r) ∧
  NormDeltaRun (sys.Ns.toNat ^ 2) tol mi
    (sorSweep sys.Ns.toNat w (flatSources sys))
    (pinInit (flatSources sys) (flatPot sys) r) ∧
  (jacobiSolve sys r tol mi).arr.potentials
    = unflat2 sys.Ns.toNat (jacobiX sys r tol mi) ∧
  (gaussSolve sys G r tol mi).arr.potentials
    = unflat2 sys.Ns.toNat (gaussX sys G r tol mi) ∧
  (sorSolve sys w r tol mi).arr.potentials
    = unflat2 sys.Ns.toNat (sorX sys w r tol mi)

/-- Full statement of the source-cell pinning invariant for one system, one
shape and one set of solver parameters: it is preserved by `add`, it holds
after every completed sweep of each of the three methods (for any number of
sweeps), and it holds of each method's final stored field. -/
def SourcePinnedAll (sys : SystemState) (sh : Shape) (r : ℕ → ℚ)
    (tol w : ℚ) (mi : ℕ) (G : ℕ → ℕ → ℚ) : Prop :=
  (EqPotSP sys.Ns.toNat (systemAdd sys sh).arr ∧
   PinnedInv sys.Ns.toNat (systemAdd sys sh).arr) ∧
  (∀ m k, k < sys.Ns.toNat ^ 2 → flatSources sys k = true →
      ((jacobiSweep sys.Ns.toNat (flatSources sys) (flatPot sys))^[m]
          (pinInit (flatSources sys) (flatPot sys) r) k = flatSP sys k ∧
       (gaussSweep sys.Ns.toNat G (flatSources sys) (flatPot sys))^[m]
          (pinInit (flatSources sys) (flatPot sys) r) k = flatSP sys k ∧
       (sorSweep sys.Ns.toNat w (flatSources sys))^[m]
          (pinInit (flatSources sys) (flatPot sys) r) k = flatSP sys k)) ∧
  (PinnedInv sys.Ns.toNat (jacobiSolve sys r tol mi).arr ∧
   PinnedInv sys.Ns.toNat (gaussSolve sys G r tol mi).arr ∧
   PinnedInv sys.Ns.toNat (sorSolve sys w r tol mi).arr)

/-! Shared lemmas. -/

theorem relaxLoop_iterates (f : (ℕ → ℚ) → ℕ → ℚ) (s : (ℕ → ℚ) → (ℕ → ℚ) → Bool) :
    ∀ fuel x0, ∃ nn, nn ≤ fuel ∧ relaxLoop f s fuel x0 = f^[nn] x0 := by
  intro fuel
  induction fuel with
  | zero => intro x0; exact ⟨0, le_refl 0, rfl⟩
  | succ fuel ih =>
    intro x0
    by_cases hs : s x0 (f x0) = true
    · exact ⟨1, by omega, by simp [relaxLoop, hs]⟩
    · obtain ⟨nn, h1, h2⟩ := ih (f x0)
      refine ⟨nn + 1, by omega, ?_⟩
      rw [show relaxLoop f s (fuel + 1) x0
            = if s x0 (f x0) = true then f x0 else relaxLoop f s fuel (f x0) from rfl,
        if_neg hs, h2, Function.iterate_succ_apply]

theorem relaxLoop_char (f : (ℕ → ℚ) → ℕ → ℚ) (s : (ℕ → ℚ) → (ℕ → ℚ) → Bool) :
    ∀ fuel x0, 0 < fuel →
    ∃ nn, 1 ≤ nn ∧ nn ≤ fuel ∧ relaxLoop f s fuel x0 = f^[nn] x0 ∧
      (∀ m, m + 1 < nn → s (f^[m] x0) (f^[m + 1] x0) = false) ∧
      (nn < fuel → s (f^[nn - 1] x0) (f^[nn] x0) = true) := by
  intro fuel
  induction fuel with
  | zero => intro x0 h; exact absurd h (lt_irrefl 0)
  | succ fuel ih =>
    intro x0 _
    by_cases hs : s x0 (f x0) = true
    · refine ⟨1, le_refl 1, by omega, by simp [relaxLoop, hs], ?_, ?_⟩
      · intro m hm; omega
      · intro _; simpa using hs
    · have hb : s x0 (f x0) = false := by simpa using hs
      have hstep : relaxLoop f s (fuel + 1) x0 = relaxLoop f s fuel (f x0) := by
        rw [show relaxLoop f s (fuel + 1) x0
              = if s x0 (f x0) = true then f x0 else relaxLoop f s fuel (f x0) from rfl,
          if_neg hs]
      rcases Nat.eq_zero_or_pos fuel with h0 | hpos
      · subst h0
        refine ⟨1, le_refl 1, le_refl 1, ?_, ?_, ?_⟩
        · rw [hstep]; rfl
        · intro m hm; omega
        · intro h; exact absurd h (lt_irrefl 1)
      · obtain ⟨nn, h1, h2, h3, h4, h5⟩ := ih (f x0) hpos
        obtain ⟨nn', rfl⟩ : ∃ nn', nn = nn' + 1 := ⟨nn - 1, by omega⟩
        refine ⟨nn' + 2, by omega, by omega, ?_, ?_, ?_⟩
        · rw [hstep, h3, ← Function.iterate_succ_apply]
        · intro m hm
          cases m with
          | zero => simpa using hb
          | succ m' =>
            have hmid := h4 m' (by omega)
            rw [Function.iterate_succ_apply f (m' + 1) x0, Function.iterate_succ_apply f m' x0]
            exact hmid
        · intro h
          have h6 := h5 (by omega)
          rw [show nn' + 2 - 1 = nn' + 1 from rfl,
            Function.iterate_succ_apply f (nn' + 1) x0, Function.iterate_succ_apply f nn' x0]
          simpa using h6

theorem normStopB_iff (N : ℕ) (tol : ℚ) (x y : ℕ → ℚ) :
    normStopB N tol x y = true ↔ normStop N tol x y := by
  unfold normStopB
  exact @decide_eq_true_iff _ (Classical.propDecidable _)

theorem normStopB_false_iff (N : ℕ) (tol : ℚ) (x y : ℕ → ℚ) :
    normStopB N tol x y = false ↔ ¬ normStop N tol x y := by
  rw [← normStopB_iff N tol x y]
  cases normStopB N tol x y <;> simp

/-! SOR sweep structure. -/

theorem sorSweepAux_ge (n : ℕ) (w : ℚ) (srcs : ℕ → Bool) (x : ℕ → ℚ) :
    ∀ m j, m ≤ j → sorSweepAux n w srcs x m j = x j := by
  intro m
  induction m with
  | zero => intro j _; rfl
  | succ m ih =>
    intro j hj
    have hmj : j ≠ m := by omega
    by_cases hs : srcs m
    · rw [show sorSweepAux n w srcs x (m + 1)
            = if srcs m = true then sorSweepAux n w srcs x m
              else Function.update (sorSweepAux n w srcs x m) m
                (sorCellUpdate n w (sorSweepAux n w srcs x m) m) from rfl,
        if_pos hs]
      exact ih j (by omega)
    · rw [show sorSweepAux n w srcs x (m + 1)
            = if srcs m = true then sorSweepAux n w srcs x m
              else Function.update (sorSweepAux n w srcs x m) m
                (sorCellUpdate n w (sorSweepAux n w srcs x m) m) from rfl,
        if_neg hs, Function.update_noteq hmj]
      exact ih j (by omega)

theorem sorSweepAux_stable (n : ℕ) (w : ℚ) (srcs : ℕ → Bool) (x : ℕ → ℚ) :
    ∀ d m j, j < m → sorSweepAux n w srcs x (m + d) j = sorSweepAux n w srcs x m j := by
  intro d
  induction d with
  | zero => intro m j _; rfl
  | succ d ih =>
    intro m j hj
    have hmj : j ≠ m + d := by omega
    rw [show m + (d + 1) = (m + d) + 1 from rfl]
    by_cases hs : srcs (m + d)
    · rw [show sorSweepAux n w srcs x ((m + d) + 1)
            = if srcs (m + d) = true then sorSweepAux n w srcs x (m + d)
              else Function.update (sorSweepAux n w srcs x (m + d)) (m + d)
                (sorCellUpdate n w (sorSweepAux n w srcs x (m + d)) (m + d)) from rfl,
        if_pos hs]
      exact ih m j hj
    · rw [show sorSweepAux n w srcs x ((m + d) + 1)
            = if srcs (m + d) = true then sorSweepAux n w srcs x (m + d)
              else Function.update (sorSweepAux n w srcs x (m + d)) (m + d)
                (sorCellUpdate n w (sorSweepAux n w srcs x (m + d)) (m + d)) from rfl,
        if_neg hs, Function.update_noteq hmj]
      exact ih m j hj

theorem sorSweepAux_src (n : ℕ) (w : ℚ) (srcs : ℕ → Bool) (x : ℕ → ℚ) (k : ℕ)
    (hk : srcs k = true) : ∀ m, sorSweepAux n w srcs x m k = x k := by
  intro m
  induction m with
  | zero => rfl
  | succ m ih =>
    by_cases hs : srcs m
    · rw [show sorSweepAux n w srcs x (m + 1)
            = if srcs m = true then sorSweepAux n w srcs x m
              else Function.update (sorSweepAux n w srcs x m) m
                (sorCellUpdate n w (sorSweepAux n w srcs x m) m) from rfl,
        if_pos hs]
      exact ih
    · have hmk : k ≠ m := by
        intro h; rw [h] at hk; exact hs hk
      rw [show sorSweepAux n w srcs x (m + 1)
            = if srcs m = true then sorSweepAux n w srcs x m
              else Function.update (sorSweepAux n w srcs x m) m
                (sorCellUpdate n w (sorSweepAux n w srcs x m) m) from rfl,
        if_neg hs, Function.update_noteq hmk]
      exact ih

theorem sorSweep_src (n : ℕ) (w : ℚ) (srcs : ℕ → Bool) (x : ℕ → ℚ) (k : ℕ)
    (hk : srcs k = true) : sorSweep n w srcs x k = x k :=
  sorSweepAux_src n w srcs x k hk (n ^ 2)

theorem sorSweep_formula (n : ℕ) (w : ℚ) (srcs : ℕ → Bool) (x : ℕ → ℚ) (k : ℕ)
    (hk : k < n ^ 2) (hs : srcs k = false) :
    sorSweep n w srcs x k =
      (1 - w) * x k + (w / Ddiag n k) *
        (bvec k - (∑ j ∈ Finset.range k, Lmat n k j * sorSweep n w srcs x j)
                - (∑ j ∈ Finset.Ico (k + 1) (n ^ 2), Umat n k j * x j)) := by
  have hs' : ¬ srcs k = true := by rw [hs]; exact Bool.false_ne_true
  have h1 : sorSweep n w srcs x k = sorSweepAux n w srcs x (k + 1) k := by
    unfold sorSweep
    rw [show n ^ 2 = (k + 1) + (n ^ 2 - (k + 1)) by omega]
    exact sorSweepAux_stable n w srcs x (n ^ 2 - (k + 1)) (k + 1) k (by omega)
  rw [h1,
    show sorSweepAux n w srcs x (k + 1)
        = if srcs k = true then sorSweepAux n w srcs x k
          else Function.update (sorSweepAux n w srcs x k) k
            (sorCellUpdate n w (sorSweepAux n w srcs x k) k) from rfl,
    if_neg hs', Function.update_same]
  unfold sorCellUpdate
  rw [sorSweepAux_ge n w srcs x k k (le_refl k)]
  have hA : (∑ j ∈ Finset.range k, Lmat n k j * sorSweepAux n w srcs x k j)
      = ∑ j ∈ Finset.range k, Lmat n k j * sorSweep n w srcs x j := by
    apply Finset.sum_congr rfl
    intro j hj
    rw [Finset.mem_range] at hj
    have hst : sorSweep n w srcs x j = sorSweepAux n w srcs x k j := by
      unfold sorSweep
      rw [show n ^ 2 = k + (n ^ 2 - k) by omega]
      exact sorSweepAux_stable n w srcs x (n ^ 2 - k) k j hj
    rw [hst]
  have hB : (∑ j ∈ Finset.Ico (k + 1) (n ^ 2), Umat n k j * sorSweepAux n w srcs x k j)
      = ∑ j ∈ Finset.Ico (k + 1) (n ^ 2), Umat n k j * x j := by
    apply Finset.sum_congr rfl
    intro j hj
    rw [Finset.mem_Ico] at hj
    rw [sorSweepAux_ge n w srcs x k j (by omega)]
  rw [hA, hB]

/-! Pinning of source cells through iterated sweeps. -/

theorem jacobiSweep_iterate_src (n : ℕ) (srcs : ℕ → Bool) (orig x0 : ℕ → ℚ) (k : ℕ)
    (h0 : x0 k = orig k) (hk : srcs k = true) :
    ∀ m, (jacobiSweep n srcs orig)^[m] x0 k = orig k := by
  intro m
  cases m with
  | zero => exact h0
  | succ m =>
    rw [Function.iterate_succ_apply']
    simp [jacobiSweep, hk]

theorem gaussSweep_iterate_src (n : ℕ) (G : ℕ → ℕ → ℚ) (srcs : ℕ → Bool)
    (orig x0 : ℕ → ℚ) (k : ℕ) (h0 : x0 k = orig k) (hk : srcs k = true) :
    ∀ m, (gaussSweep n G srcs orig)^[m] x0 k = orig k := by
  intro m
  cases m with
  | zero => exact h0
  | succ m =>
    rw [Function.iterate_succ_apply']
    simp [gaussSweep, hk]

theorem sorSweep_iterate_src (n : ℕ) (w : ℚ) (srcs : ℕ → Bool) (x0 : ℕ → ℚ) (k : ℕ)
    (hk : srcs k = true) :
    ∀ m, (sorSweep n w srcs)^[m] x0 k = x0 k := by
  intro m
  induction m with
  | zero => rfl
  | succ m ih =>
    rw [Function.iterate_succ_apply', sorSweep_src n w srcs _ k hk]
    exact ih

/-! Shape invariants. -/

theorem foldl_preserve {β : Type} (P : GridArrays → Prop) (step : GridArrays → β → GridArrays)
    (h : ∀ g b, P g → P (step g b)) : ∀ l : List β, ∀ g, P g → P (l.foldl step g) := by
  intro l
  induction l with
  | nil => intro g hg; exact hg
  | cons a t ih => intro g hg; exact ih _ (h g a hg)

theorem zeroArrays_faithful (p : ℚ) : ShapeFaithful p zeroArrays := by
  intro i j
  constructor
  · intro h; exact absurd h (by simp [zeroArrays])
  · intro _; exact ⟨rfl, rfl⟩

theorem markAt_faithful (p : ℚ) (c : ℕ × ℕ) (g : GridArrays)
    (hg : ShapeFaithful p g) : ShapeFaithful p (markAt p c g) := by
  intro i j
  by_cases hc : i = c.1 ∧ j = c.2
  · constructor
    · intro _; exact ⟨by simp [markAt, upd2, hc], by simp [markAt, upd2, hc]⟩
    · intro hfalse; simp [markAt, upd2, hc] at hfalse
  · have h1 : (markAt p c g).potentials i j = g.potentials i j := by simp [markAt, upd2, hc]
    have h2 : (markAt p c g).sources i j = g.sources i j := by simp [markAt, upd2, hc]
    have h3 : (markAt p c g).source_potentials i j = g.source_potentials i j := by
      simp [markAt, upd2, hc]
    rw [h1, h2, h3]
    exact hg i j

theorem writeCellsRow_faithful (p : ℚ) (i : ℕ) (cols : List ℕ) (g : GridArrays)
    (hg : ShapeFaithful p g) : ShapeFaithful p (writeCellsRow p i cols g) :=
  foldl_preserve (ShapeFaithful p) _ (fun g' j hg' => markAt_faithful p (i, j) g' hg') cols g hg

theorem fillRow_faithful (n : ℕ) (p : ℚ) (i : ℕ) (g : GridArrays)
    (hg : ShapeFaithful p g) : ShapeFaithful p (fillRow n p i g) := by
  unfold fillRow
  by_cases h : 2 ≤ (rowMarked n g i).length
  · rw [if_pos h]; exact writeCellsRow_faithful p i _ g hg
  · rw [if_neg h]; exact hg

theorem fillOp_faithful (n : ℕ) (p : ℚ) (g : GridArrays)
    (hg : ShapeFaithful p g) : ShapeFaithful p (fillOp n p g) :=
  foldl_preserve (ShapeFaithful p) _ (fun g' i hg' => fillRow_faithful n p i g' hg')
    (List.range n) g hg

theorem applyOp_faithful (n : ℕ) (p : ℚ) (g : GridArrays) (op : ShapeOp)
    (hg : ShapeFaithful p g) : ShapeFaithful p (applyOp n p g op) := by
  cases op with
  | mark c => exact markAt_faithful p c g hg
  | fill => exact fillOp_faithful n p g hg

theorem shapeBuild_faithful (n : ℕ) (p : ℚ) (ops : List ShapeOp) :
    ShapeFaithful p (shapeBuild n p ops) :=
  foldl_preserve (ShapeFaithful p) _ (fun g op hg => applyOp_faithful n p g op hg)
    ops zeroArrays (zeroArrays_faithful p)

theorem isShape_faithful (sh : Shape) (h : IsShape sh) :
    ShapeFaithful sh.potential sh.arr := by
  obtain ⟨ops, hops⟩ := h
  rw [hops]
  exact shapeBuild_faithful sh.Ns.natAbs sh.potential ops

theorem shapeFaithful_eq (p : ℚ) (g : GridArrays) (h : ShapeFaithful p g) :
    ∀ i j, g.potentials i j = g.source_potentials i j := by
  intro i j
  by_cases hs : g.sources i j = true
  · obtain ⟨h1, h2⟩ := (h i j).1 hs
    rw [h1, h2]
  · obtain ⟨h1, h2⟩ := (h i j).2 (by simpa using hs)
    rw [h1, h2]

/-! Stencil-matrix lemmas. -/

theorem Amatrix_diag (n i : ℕ) : Amatrix n i i = -4 := by
  simp [Amatrix]

theorem Dmat_mul_DmatInv (n : ℕ) (i j : ℕ) (hi : i < n ^ 2) :
    matMulQ (n ^ 2) (Dmat n) (DmatInv n) i j = if i = j then 1 else 0 := by
  unfold matMulQ
  rw [Finset.sum_eq_single_of_mem i (Finset.mem_range.mpr hi)]
  · unfold Dmat DmatInv
    rw [if_pos rfl]
    by_cases h : i = j
    · subst h
      rw [if_pos rfl, if_pos rfl]
      have hd : Ddiag n i = -4 := by simp [Ddiag, Amatrix]
      rw [hd]
      norm_num
    · rw [if_neg h, if_neg h, mul_zero]
  · intro b hb hbi
    unfold Dmat
    rw [if_neg (fun hh => hbi hh.symm), zero_mul]

theorem LU_off (n k j : ℕ) :
    Lmat n k j + Umat n k j = if j = k then 0 else Amatrix n k j := by
  unfold Lmat Umat
  rcases lt_trichotomy j k with h | h | h
  · rw [if_pos h, if_neg (by omega), if_neg (by omega), add_zero]
  · rw [if_neg (by omega), if_neg (by omega), if_pos h, add_zero]
  · rw [if_neg (by omega), if_pos h, if_neg (by omega), zero_add]

theorem Tjac_entry (n : ℕ) (k j : ℕ) (hk : k < n ^ 2) :
    Tjac n k j = if j = k then 0 else Amatrix n k j / 4 := by
  unfold Tjac matMulQ
  rw [Finset.sum_eq_single_of_mem k (Finset.mem_range.mpr hk)]
  · have hD : DmatInv n k k = (-4 : ℚ)⁻¹ := by simp [DmatInv, Ddiag, Amatrix]
    rw [hD]
    show -((-4 : ℚ)⁻¹ * (Lmat n k j + Umat n k j)) = _
    rw [LU_off]
    split_ifs with h
    · simp
    · ring
  · intro b hb hbk
    have hD0 : DmatInv n k b = 0 := by
      unfold DmatInv
      rw [if_neg (fun hh => hbk hh.symm)]
    rw [hD0, zero_mul]

theorem jacobiRaw_eq (n : ℕ) (x : ℕ → ℚ) (k : ℕ) (hk : k < n ^ 2) :
    jacobiRaw n x k = (∑ j ∈ (Finset.range (n ^ 2)).erase k, Amatrix n k j * x j) / 4 := by
  unfold jacobiRaw matVecQ
  have hb : (∑ j ∈ Finset.range (n ^ 2), DmatInv n k j * bvec j) = 0 := by
    simp [bvec]
  rw [hb, add_zero]
  have hpt : ∀ j ∈ Finset.range (n ^ 2),
      Tjac n k j * x j = if j = k then 0 else Amatrix n k j * x j / 4 := by
    intro j _
    rw [Tjac_entry n k j hk]
    split_ifs with h
    · rw [zero_mul]
    · ring
  rw [Finset.sum_congr rfl hpt,
    ← Finset.sum_erase_add (Finset.range (n ^ 2)) _ (Finset.mem_range.mpr hk),
    if_pos rfl, add_zero, Finset.sum_div]
  apply Finset.sum_congr rfl
  intro j hj
  rw [if_neg (Finset.mem_erase.mp hj).1]

/-! Flattening lemmas. -/

theorem flat2_mk {α : Type} (n : ℕ) (f : ℕ → ℕ → α) (i j : ℕ) (hj : j < n) :
    flat2 n f (i * n + j) = f i j := by
  have hn : 0 < n := by omega
  have h1 : (i * n + j) / n = i := by
    rw [mul_comm, Nat.mul_add_div hn, Nat.div_eq_of_lt hj, add_zero]
  have h2 : (i * n + j) % n = j := by
    rw [mul_comm, Nat.mul_add_mod, Nat.mod_eq_of_lt hj]
  show f ((i * n + j) / n) ((i * n + j) % n) = f i j
  rw [h1, h2]

theorem flat_bounds (n k : ℕ) (hk : k < n ^ 2) : k / n < n ∧ k % n < n := by
  have hn : 0 < n := by
    rcases Nat.eq_zero_or_pos n with h | h
    · subst h; simp at hk
    · exact h
  constructor
  · exact Nat.div_lt_of_lt_mul (by rw [← pow_two]; exact hk)
  · exact Nat.mod_lt k hn

theorem flat_index_lt (n i j : ℕ) (hi : i < n) (hj : j < n) : i * n + j < n ^ 2 := by
  have h1 : i * n + j < (i + 1) * n := by
    rw [add_mul, one_mul]
    omega
  have h2 : (i + 1) * n ≤ n * n := Nat.mul_le_mul_right n (by omega)
  rw [pow_two]
  omega

/-! Counting the off-diagonal stencil entries. -/

theorem amatrix_off_iff (n : ℕ) (hn : 1 ≤ n) (i j : ℕ) :
    (j ≠ i ∧ Amatrix n i j = 1) ↔
      ((j + 1 = i ∧ i % n ≠ 0) ∨ (j = i + 1 ∧ i % n + 2 ≤ n)
       ∨ (j + n = i ∧ n ≤ i) ∨ (j = i + n ∧ i / n + 2 ≤ n)) := by
  constructor
  · rintro ⟨hne, hA⟩
    unfold Amatrix at hA
    rw [if_neg (fun h => hne h.symm)] at hA
    by_cases hd : (j + 1 = i ∧ i % n ≠ 0) ∨ (j = i + 1 ∧ i % n + 2 ≤ n)
       ∨ (j + n = i ∧ n ≤ i) ∨ (j = i + n ∧ i / n + 2 ≤ n)
    · exact hd
    · rw [if_neg hd] at hA
      norm_num at hA
  · intro h
    have hne : j ≠ i := by
      rcases h with ⟨h1, h2⟩ | ⟨h1, h2⟩ | ⟨h1, h2⟩ | ⟨h1, h2⟩ <;> omega
    refine ⟨hne, ?_⟩
    unfold Amatrix
    rw [if_neg (fun hh => hne hh.symm), if_pos h]

theorem indicator_split (n : ℕ) (hn : 1 ≤ n) (i j : ℕ) :
    (if ((j + 1 = i ∧ i % n ≠ 0) ∨ (j = i + 1 ∧ i % n + 2 ≤ n)
        ∨ (j + n = i ∧ n ≤ i) ∨ (j = i + n ∧ i / n + 2 ≤ n)) then (1 : ℕ) else 0)
    = (if (j + 1 = i ∧ i % n ≠ 0) then 1 else 0)
      + (if (j = i + 1 ∧ i % n + 2 ≤ n) then 1 else 0)
      + (if (j + n = i ∧ n ≤ i) then 1 else 0)
      + (if (j = i + n ∧ i / n + 2 ≤ n) then 1 else 0) := by
  have hc : i % n < n := Nat.mod_lt _ (by omega)
  revert hc
  generalize i % n = c
  generalize i / n = r
  intro hc
  by_cases hd : (j + 1 = i ∧ c ≠ 0) ∨ (j = i + 1 ∧ c + 2 ≤ n)
      ∨ (j + n = i ∧ n ≤ i) ∨ (j = i + n ∧ r + 2 ≤ n)
  · rw [if_pos hd]
    rcases hd with h | h | h | h
    · obtain ⟨ha, hb⟩ := h
      rw [if_pos ⟨ha, hb⟩,
        if_neg (fun hcon => by obtain ⟨h2a, h2b⟩ := hcon; omega),
        if_neg (fun hcon => by obtain ⟨h2a, h2b⟩ := hcon; omega),
        if_neg (fun hcon => by obtain ⟨h2a, h2b⟩ := hcon; omega)]
    · obtain ⟨ha, hb⟩ := h
      rw [if_neg (fun hcon => by obtain ⟨h2a, h2b⟩ := hcon; omega),
        if_pos ⟨ha, hb⟩,
        if_neg (fun hcon => by obtain ⟨h2a, h2b⟩ := hcon; omega),
        if_neg (fun hcon => by obtain ⟨h2a, h2b⟩ := hcon; omega)]
    · obtain ⟨ha, hb⟩ := h
      rw [if_neg (fun hcon => by obtain ⟨h2a, h2b⟩ := hcon; omega),
        if_neg (fun hcon => by obtain ⟨h2a, h2b⟩ := hcon; omega),
        if_pos ⟨ha, hb⟩,
        if_neg (fun hcon => by obtain ⟨h2a, h2b⟩ := hcon; omega)]
    · obtain ⟨ha, hb⟩ := h
      rw [if_neg (fun hcon => by obtain ⟨h2a, h2b⟩ := hcon; omega),
        if_neg (fun hcon => by obtain ⟨h2a, h2b⟩ := hcon; omega),
        if_neg (fun hcon => by obtain ⟨h2a, h2b⟩ := hcon; omega),
        if_pos ⟨ha, hb⟩]
  · rw [if_neg hd]
    rw [if_neg (fun hcon => hd (Or.inl hcon)),
      if_neg (fun hcon => hd (Or.inr (Or.inl hcon))),
      if_neg (fun hcon => hd (Or.inr (Or.inr (Or.inl hcon)))),
      if_neg (fun hcon => hd (Or.inr (Or.inr (Or.inr hcon))))]

theorem offDiagOnes_eq_nbrInd (n : ℕ) (hn : 1 ≤ n) (i : ℕ) (hi : i < n ^ 2) :
    offDiagOnes n i = nbrInd n i := by
  have hr : i / n < n := (flat_bounds n i hi).1
  have hc : i % n < n := (flat_bounds n i hi).2
  have hrc : n * (i / n) + i % n = i := Nat.div_add_mod i n
  have hnn : n ^ 2 = n * n := pow_two n
  have hkey1 : n * (i / n) + n ≤ n * n := by
    have h6 : n * (i / n + 1) ≤ n * n := Nat.mul_le_mul_left n (by omega)
    rw [Nat.mul_add, Nat.mul_one] at h6
    exact h6
  unfold offDiagOnes
  rw [Finset.card_filter]
  have hcong : ∀ j ∈ Finset.range (n ^ 2),
      (if (j ≠ i ∧ Amatrix n i j = 1) then (1 : ℕ) else 0)
      = (if (j + 1 = i ∧ i % n ≠ 0) then 1 else 0)
        + (if (j = i + 1 ∧ i % n + 2 ≤ n) then 1 else 0)
        + (if (j + n = i ∧ n ≤ i) then 1 else 0)
        + (if (j = i + n ∧ i / n + 2 ≤ n) then 1 else 0) := by
    intro j _
    rw [if_congr (amatrix_off_iff n hn i j) rfl rfl]
    exact indicator_split n hn i j
  rw [Finset.sum_congr rfl hcong, Finset.sum_add_distrib, Finset.sum_add_distrib,
    Finset.sum_add_distrib]
  have s1 : (∑ j ∈ Finset.range (n ^ 2), if (j + 1 = i ∧ i % n ≠ 0) then (1 : ℕ) else 0)
      = if i % n ≠ 0 then 1 else 0 := by
    by_cases hC : i % n ≠ 0
    · rw [if_pos hC]
      have hi1 : 1 ≤ i := by
        by_contra hcon
        have hz : i = 0 := by omega
        subst hz
        simp at hC
      have hcond : ∀ j, (j + 1 = i ∧ i % n ≠ 0) ↔ j = i - 1 := by
        intro j
        constructor
        · rintro ⟨h, _⟩; omega
        · intro h; exact ⟨by omega, hC⟩
      rw [Finset.sum_congr rfl (fun j _ => if_congr (hcond j) rfl rfl),
        Finset.sum_ite_eq' (Finset.range (n ^ 2)) (i - 1) (fun _ => 1),
        if_pos (Finset.mem_range.mpr (by omega))]
    · rw [if_neg hC]
      exact Finset.sum_eq_zero (fun j _ => by rw [if_neg (fun hh => hC hh.2)])
  have s2 : (∑ j ∈ Finset.range (n ^ 2), if (j = i + 1 ∧ i % n + 2 ≤ n) then (1 : ℕ) else 0)
      = if i % n + 2 ≤ n then 1 else 0 := by
    by_cases hC : i % n + 2 ≤ n
    · rw [if_pos hC]
      have hmem : i + 1 < n ^ 2 := by rw [hnn]; omega
      rw [Finset.sum_congr rfl (fun j _ => if_congr (and_iff_left hC) rfl rfl),
        Finset.sum_ite_eq' (Finset.range (n ^ 2)) (i + 1) (fun _ => 1),
        if_pos (Finset.mem_range.mpr hmem)]
    · rw [if_neg hC]
      exact Finset.sum_eq_zero (fun j _ => by rw [if_neg (fun hh => hC hh.2)])
  have s3 : (∑ j ∈ Finset.range (n ^ 2), if (j + n = i ∧ n ≤ i) then (1 : ℕ) else 0)
      = if n ≤ i then 1 else 0 := by
    by_cases hC : n ≤ i
    · rw [if_pos hC]
      have hcond : ∀ j, (j + n = i ∧ n ≤ i) ↔ j = i - n := by
        intro j
        constructor
        · rintro ⟨h, _⟩; omega
        · intro h; exact ⟨by omega, hC⟩
      rw [Finset.sum_congr rfl (fun j _ => if_congr (hcond j) rfl rfl),
        Finset.sum_ite_eq' (Finset.range (n ^ 2)) (i - n) (fun _ => 1),
        if_pos (Finset.mem_range.mpr (by omega))]
    · rw [if_neg hC]
      exact Finset.sum_eq_zero (fun j _ => by rw [if_neg (fun hh => hC hh.2)])
  have s4 : (∑ j ∈ Finset.range (n ^ 2), if (j = i + n ∧ i / n + 2 ≤ n) then (1 : ℕ) else 0)
      = if i / n + 2 ≤ n then 1 else 0 := by
    by_cases hC : i / n + 2 ≤ n
    · rw [if_pos hC]
      have hkey2 : n * (i / n) + n * 2 ≤ n * n := by
        have h6 : n * (i / n + 2) ≤ n * n := Nat.mul_le_mul_left n hC
        rw [Nat.mul_add] at h6
        exact h6
      have hmem : i + n < n ^ 2 := by rw [hnn]; omega
      rw [Finset.sum_congr rfl (fun j _ => if_congr (and_iff_left hC) rfl rfl),
        Finset.sum_ite_eq' (Finset.range (n ^ 2)) (i + n) (fun _ => 1),
        if_pos (Finset.mem_range.mpr hmem)]
    · rw [if_neg hC]
      exact Finset.sum_eq_zero (fun j _ => by rw [if_neg (fun hh => hC hh.2)])
  rw [s1, s2, s3, s4]
  rfl

theorem filter_four {α : Type} (p : α → Bool) (a b c d : α) :
    (List.filter p [a, b, c, d]).length
    = (if p a = true then 1 else 0) + (if p b = true then 1 else 0)
      + (if p c = true then 1 else 0) + (if p d = true then 1 else 0) := by
  cases hpa : p a <;> cases hpb : p b <;> cases hpc : p c <;> cases hpd : p d <;>
    simp [List.filter, hpa, hpb, hpc, hpd]

theorem neighborCount_eq_nbrInd (n : ℕ) (hn : 1 ≤ n) (i : ℕ) (hi : i < n ^ 2) :
    neighborCount n ((i / n : ℕ) : ℤ) ((i % n : ℕ) : ℤ) = nbrInd n i := by
  have hr : i / n < n := (flat_bounds n i hi).1
  have hc : i % n < n := (flat_bounds n i hi).2
  have hdiv : 1 ≤ i / n ↔ n ≤ i := Nat.one_le_div_iff (by omega)
  have hr0 : (0 : ℤ) ≤ ((i / n : ℕ) : ℤ) := Int.natCast_nonneg _
  have hc0 : (0 : ℤ) ≤ ((i % n : ℕ) : ℤ) := Int.natCast_nonneg _
  unfold neighborCount cardinalNeighbors
  rw [filter_four]
  have e1 : (inBoundsZ n (((i / n : ℕ) : ℤ), ((i % n : ℕ) : ℤ) - 1) = true) ↔ (i % n ≠ 0) := by
    unfold inBoundsZ
    rw [decide_eq_true_iff]
    constructor
    · rintro ⟨h1, h2, h3, h4⟩; omega
    · intro h'; refine ⟨by omega, by omega, by omega, by omega⟩
  have e2 : (inBoundsZ n (((i / n : ℕ) : ℤ), ((i % n : ℕ) : ℤ) + 1) = true) ↔ (i % n + 2 ≤ n) := by
    unfold inBoundsZ
    rw [decide_eq_true_iff]
    constructor
    · rintro ⟨h1, h2, h3, h4⟩; omega
    · intro h'; refine ⟨by omega, by omega, by omega, by omega⟩
  have e3 : (inBoundsZ n (((i / n : ℕ) : ℤ) - 1, ((i % n : ℕ) : ℤ)) = true) ↔ (n ≤ i) := by
    unfold inBoundsZ
    rw [decide_eq_true_iff]
    constructor
    · rintro ⟨h1, h2, h3, h4⟩
      refine hdiv.mp ?_
      omega
    · intro h'
      have h1r : 1 ≤ i / n := hdiv.mpr h'
      refine ⟨by omega, by omega, by omega, by omega⟩
  have e4 : (inBoundsZ n (((i / n : ℕ) : ℤ) + 1, ((i % n : ℕ) : ℤ)) = true) ↔ (i / n + 2 ≤ n) := by
    unfold inBoundsZ
    rw [decide_eq_true_iff]
    constructor
    · rintro ⟨h1, h2, h3, h4⟩; omega
    · intro h'; refine ⟨by omega, by omega, by omega, by omega⟩
  rw [if_congr e1 rfl rfl, if_congr e2 rfl rfl, if_congr e3 rfl rfl, if_congr e4 rfl rfl]
  rfl

theorem nbrInd_interior (n i : ℕ) (hi : i < n ^ 2)
    (h : isInterior n (i / n) (i % n)) : nbrInd n i = 4 := by
  obtain ⟨h1, h2, h3, h4⟩ := h
  have hdiv : 1 ≤ i / n ↔ n ≤ i := Nat.one_le_div_iff (by omega)
  have hr0 : 0 ≤ i / n := Nat.zero_le _
  have hc0 : 0 ≤ i % n := Nat.zero_le _
  unfold nbrInd
  rw [if_pos (by omega : i % n ≠ 0), if_pos (by omega : i % n + 2 ≤ n),
    if_pos (hdiv.mp (by omega)), if_pos (by omega : i / n + 2 ≤ n)]

theorem nbrInd_corner (n i : ℕ) (hn : 2 ≤ n) (hi : i < n ^ 2)
    (h : isCorner n (i / n) (i % n)) : nbrInd n i = 2 := by
  have hdiv : 1 ≤ i / n ↔ n ≤ i := Nat.one_le_div_iff (by omega)
  have hr0 : 0 ≤ i / n := Nat.zero_le _
  have hc0 : 0 ≤ i % n := Nat.zero_le _
  obtain ⟨hr, hc⟩ := h
  unfold nbrInd
  rcases hr with hr | hr <;> rcases hc with hc | hc
  · rw [if_neg (by omega : ¬ i % n ≠ 0), if_pos (by omega : i % n + 2 ≤ n),
      if_neg (fun hh => by have := hdiv.mpr hh; omega),
      if_pos (by omega : i / n + 2 ≤ n)]
  · rw [if_pos (by omega : i % n ≠ 0), if_neg (by omega : ¬ i % n + 2 ≤ n),
      if_neg (fun hh => by have := hdiv.mpr hh; omega),
      if_pos (by omega : i / n + 2 ≤ n)]
  · rw [if_neg (by omega : ¬ i % n ≠ 0), if_pos (by omega : i % n + 2 ≤ n),
      if_pos (hdiv.mp (by omega)), if_neg (by omega : ¬ i / n + 2 ≤ n)]
  · rw [if_pos (by omega : i % n ≠ 0), if_neg (by omega : ¬ i % n + 2 ≤ n),
      if_pos (hdiv.mp (by omega)), if_neg (by omega : ¬ i / n + 2 ≤ n)]

theorem nbrInd_edge (n i : ℕ) (hn : 2 ≤ n) (hi : i < n ^ 2)
    (h : isEdge n (i / n) (i % n)) : nbrInd n i = 3 := by
  have hdiv : 1 ≤ i / n ↔ n ≤ i := Nat.one_le_div_iff (by omega)
  have hr0 : 0 ≤ i / n := Nat.zero_le _
  have hc0 : 0 ≤ i % n := Nat.zero_le _
  have hrb : i / n < n := (flat_bounds n i hi).1
  have hcb : i % n < n := (flat_bounds n i hi).2
  obtain ⟨hb, hnc⟩ := h
  unfold nbrInd
  rcases hb with hb | hb
  · have hcc : ¬ (i % n = 0 ∨ i % n + 1 = n) := fun hcon => hnc ⟨hb, hcon⟩
    push_neg at hcc
    rcases hb with hb | hb
    · rw [if_pos (by omega : i % n ≠ 0), if_pos (by omega : i % n + 2 ≤ n),
        if_neg (fun hh => by have := hdiv.mpr hh; omega),
        if_pos (by omega : i / n + 2 ≤ n)]
    · rw [if_pos (by omega : i % n ≠ 0), if_pos (by omega : i % n + 2 ≤ n),
        if_pos (hdiv.mp (by omega)), if_neg (by omega : ¬ i / n + 2 ≤ n)]
  · have hrr : ¬ (i / n = 0 ∨ i / n + 1 = n) := fun hcon => hnc ⟨hcon, hb⟩
    push_neg at hrr
    rcases hb with hb | hb
    · rw [if_neg (by omega : ¬ i % n ≠ 0), if_pos (by omega : i % n + 2 ≤ n),
        if_pos (hdiv.mp (by omega)), if_pos (by omega : i / n + 2 ≤ n)]
    · rw [if_pos (by omega : i % n ≠ 0), if_neg (by omega : ¬ i % n + 2 ≤ n),
        if_pos (hdiv.mp (by omega)), if_pos (by omega : i / n + 2 ≤ n)]

/-! Row-fill lemmas. -/

theorem writeCellsRow_at (p : ℚ) (i : ℕ) (cols : List ℕ) :
    ∀ (g : GridArrays) (a b : ℕ),
      ((writeCellsRow p i cols g).potentials a b
          = if a = i ∧ b ∈ cols then p else g.potentials a b) ∧
      ((writeCellsRow p i cols g).sources a b
          = if a = i ∧ b ∈ cols then true else g.sources a b) ∧
      ((writeCellsRow p i cols g).source_potentials a b
          = if a = i ∧ b ∈ cols then p else g.source_potentials a b) := by
  induction cols with
  | nil =>
    intro g a b
    refine ⟨?_, ?_, ?_⟩ <;> rw [if_neg (fun hcon => by simpa using hcon.2)] <;> rfl
  | cons c cs ih =>
    intro g a b
    obtain ⟨ih1, ih2, ih3⟩ := ih (markAt p (i, c) g) a b
    refine ⟨?_, ?_, ?_⟩
    · show (writeCellsRow p i cs (markAt p (i, c) g)).potentials a b = _
      rw [ih1]
      show (if a = i ∧ b ∈ cs then p
          else if a = i ∧ b = c then p else g.potentials a b)
          = if a = i ∧ b ∈ c :: cs then p else g.potentials a b
      simp only [List.mem_cons]
      split_ifs <;> first | rfl | tauto
    · show (writeCellsRow p i cs (markAt p (i, c) g)).sources a b = _
      rw [ih2]
      show (if a = i ∧ b ∈ cs then true
          else if a = i ∧ b = c then true else g.sources a b)
          = if a = i ∧ b ∈ c :: cs then true else g.sources a b
      simp only [List.mem_cons]
      split_ifs <;> first | rfl | tauto
    · show (writeCellsRow p i cs (markAt p (i, c) g)).source_potentials a b = _
      rw [ih3]
      show (if a = i ∧ b ∈ cs then p
          else if a = i ∧ b = c then p else g.source_potentials a b)
          = if a = i ∧ b ∈ c :: cs then p else g.source_potentials a b
      simp only [List.mem_cons]
      split_ifs <;> first | rfl | tauto

theorem fillRow_other (n : ℕ) (p : ℚ) (i : ℕ) (g : GridArrays) (a b : ℕ) (ha : a ≠ i) :
    (fillRow n p i g).potentials a b = g.potentials a b ∧
    (fillRow n p i g).sources a b = g.sources a b ∧
    (fillRow n p i g).source_potentials a b = g.source_potentials a b := by
  unfold fillRow
  by_cases h : 2 ≤ (rowMarked n g i).length
  · rw [if_pos h]
    obtain ⟨h1, h2, h3⟩ := writeCellsRow_at p i
      (List.range' (firstMarked (rowMarked n g i) + 1)
        (lastMarked (rowMarked n g i) - (firstMarked (rowMarked n g i) + 1))) g a b
    rw [h1, h2, h3]
    refine ⟨?_, ?_, ?_⟩ <;> rw [if_neg (fun hcon => ha hcon.1)]
  · rw [if_neg h]
    exact ⟨rfl, rfl, rfl⟩

theorem foldRows_other (n : ℕ) (p : ℚ) :
    ∀ (l : List ℕ) (g : GridArrays) (a : ℕ), a ∉ l → ∀ b,
      ((l.foldl (fun s r => fillRow n p r s) g).potentials a b = g.potentials a b ∧
       (l.foldl (fun s r => fillRow n p r s) g).sources a b = g.sources a b ∧
       (l.foldl (fun s r => fillRow n p r s) g).source_potentials a b
         = g.source_potentials a b) := by
  intro l
  induction l with
  | nil => intro g a _ b; exact ⟨rfl, rfl, rfl⟩
  | cons r t ih =>
    intro g a ha b
    have har : a ≠ r := fun hcon => ha (by rw [hcon]; exact List.mem_cons_self r t)
    have hat : a ∉ t := fun hcon => ha (List.mem_cons_of_mem r hcon)
    obtain ⟨i1, i2, i3⟩ := ih (fillRow n p r g) a hat b
    obtain ⟨f1, f2, f3⟩ := fillRow_other n p r g a b har
    refine ⟨?_, ?_, ?_⟩ <;> rw [List.foldl_cons]
    · rw [i1, f1]
    · rw [i2, f2]
    · rw [i3, f3]

theorem fillOp_split (n : ℕ) (p : ℚ) (i : ℕ) (hi : i < n) (g : GridArrays) :
    fillOp n p g = (List.range' (i + 1) (n - i - 1)).foldl (fun s r => fillRow n p r s)
      (fillRow n p i ((List.range' 0 i).foldl (fun s r => fillRow n p r s) g)) := by
  unfold fillOp
  rw [List.range_eq_range' n]
  have hsplit : List.range' 0 n = List.range' 0 i ++ List.range' i (n - i) := by
    have h0 := List.range'_append 0 i (n - i) 1
    rw [show 0 + 1 * i = i by omega, show (n - i) + i = n by omega] at h0
    exact h0.symm
  rw [hsplit, List.foldl_append,
    show n - i = (n - i - 1) + 1 by omega, List.range'_succ]
  rfl

theorem mem_rowMarked (n : ℕ) (g : GridArrays) (i j : ℕ) :
    j ∈ rowMarked n g i ↔ j < n ∧ g.sources i j = true := by
  unfold rowMarked
  rw [List.mem_filter, List.mem_range]

theorem rowMarked_congr (n : ℕ) (i : ℕ) (g g' : GridArrays)
    (h : ∀ j, j < n → g.sources i j = g'.sources i j) :
    rowMarked n g i = rowMarked n g' i := by
  unfold rowMarked
  apply List.filter_congr
  intro j hj
  rw [List.mem_range] at hj
  rw [h j hj]

theorem rowMarked_sorted (n : ℕ) (g : GridArrays) (i : ℕ) :
    (rowMarked n g i).Pairwise (· < ·) :=
  List.Pairwise.filter _ (List.pairwise_lt_range n)

theorem lastMarked_mem : ∀ l : List ℕ, l ≠ [] → lastMarked l ∈ l := by
  intro l
  induction l with
  | nil => intro h; exact absurd rfl h
  | cons a t ih =>
    intro _
    cases t with
    | nil => simp [lastMarked]
    | cons b t2 =>
      have hmem := ih (by simp)
      rw [show lastMarked (a :: b :: t2) = lastMarked (b :: t2) from rfl]
      exact List.mem_cons_of_mem a hmem

theorem first_lt_last (l : List ℕ) (hs : l.Pairwise (· < ·)) (h2 : 2 ≤ l.length) :
    firstMarked l < lastMarked l := by
  cases l with
  | nil => simp at h2
  | cons a t =>
    cases t with
    | nil => simp at h2
    | cons b t2 =>
      have hmem : lastMarked (b :: t2) ∈ b :: t2 := lastMarked_mem _ (by simp)
      have hlt : ∀ x ∈ b :: t2, a < x := (List.pairwise_cons.mp hs).1
      show a < lastMarked (a :: b :: t2)
      rw [show lastMarked (a :: b :: t2) = lastMarked (b :: t2) from rfl]
      exact hlt _ hmem

theorem fillRow_of_short (n : ℕ) (p : ℚ) (i : ℕ) (g : GridArrays)
    (h : ¬ 2 ≤ (rowMarked n g i).length) : fillRow n p i g = g := by
  unfold fillRow
  rw [if_neg h]

theorem fillRow_of_long (n : ℕ) (p : ℚ) (i : ℕ) (g : GridArrays)
    (h : 2 ≤ (rowMarked n g i).length) :
    fillRow n p i g = writeCellsRow p i
      (List.range' (firstMarked (rowMarked n g i) + 1)
        (lastMarked (rowMarked n g i) - (firstMarked (rowMarked n g i) + 1))) g := by
  unfold fillRow
  rw [if_pos h]

/-- C9: when a shape is added with `filled` true, after the outline is
rasterized the `fill` pass works row by row: in every grid row `i < n` with at
least two source-marked cells, each cell strictly between the first and the
last marked cell is additionally marked as a source with the shape's
potential (and cells outside that open interval are untouched); a row with
fewer than two marked cells is left entirely unchanged.  `Shape.add_source`
invokes exactly `fillOp` after rasterising the outline whenever `filled` is
true (see `addSource`). -/
theorem c9_scanline_fill (n : ℕ) (p : ℚ) (g : GridArrays) (i : ℕ) (hi : i < n) :
    ((rowMarked n g i).length ≤ 1 →
      ∀ j, (fillOp n p g).potentials i j = g.potentials i j ∧
           (fillOp n p g).sources i j = g.sources i j ∧
           (fillOp n p g).source_potentials i j = g.source_potentials i j) ∧
    (2 ≤ (rowMarked n g i).length →
      ∀ j, (firstMarked (rowMarked n g i) < j ∧ j < lastMarked (rowMarked n g i) →
              (fillOp n p g).potentials i j = p ∧
              (fillOp n p g).sources i j = true ∧
              (fillOp n p g).source_potentials i j = p) ∧
           (j ≤ firstMarked (rowMarked n g i) ∨ lastMarked (rowMarked n g i) ≤ j →
              (fillOp n p g).potentials i j = g.potentials i j ∧
              (fillOp n p g).sources i j = g.sources i j ∧
              (fillOp n p g).source_potentials i j = g.source_potentials i j)) := by
  have hrow1 : ∀ b,
      (((List.range' 0 i).foldl (fun s r => fillRow n p r s) g).potentials i b
        = g.potentials i b) ∧
      (((List.range' 0 i).foldl (fun s r => fillRow n p r s) g).sources i b
        = g.sources i b) ∧
      (((List.range' 0 i).foldl (fun s r => fillRow n p r s) g).source_potentials i b
        = g.source_potentials i b) := by
    intro b
    refine foldRows_other n p (List.range' 0 i) g i ?_ b
    intro hcon
    rw [List.mem_range'_1] at hcon
    omega
  have hrm : rowMarked n ((List.range' 0 i).foldl (fun s r => fillRow n p r s) g) i
      = rowMarked n g i :=
    rowMarked_congr n i _ g (fun j _ => (hrow1 j).2.1)
  have hafter : ∀ b,
      ((fillOp n p g).potentials i b
        = (fillRow n p i ((List.range' 0 i).foldl (fun s r => fillRow n p r s) g)).potentials i b) ∧
      ((fillOp n p g).sources i b
        = (fillRow n p i ((List.range' 0 i).foldl (fun s r => fillRow n p r s) g)).sources i b) ∧
      ((fillOp n p g).source_potentials i b
        = (fillRow n p i ((List.range' 0 i).foldl (fun s r => fillRow n p r s) g)).source_potentials i b) := by
    intro b
    rw [fillOp_split n p i hi g]
    refine foldRows_other n p (List.range' (i + 1) (n - i - 1)) _ i ?_ b
    intro hcon
    rw [List.mem_range'_1] at hcon
    omega
  constructor
  · intro hlen j
    have hlen1 : ¬ 2 ≤ (rowMarked n ((List.range' 0 i).foldl (fun s r => fillRow n p r s) g) i).length := by
      rw [hrm]; omega
    have hfr : fillRow n p i ((List.range' 0 i).foldl (fun s r => fillRow n p r s) g)
        = (List.range' 0 i).foldl (fun s r => fillRow n p r s) g :=
      fillRow_of_short n p i _ hlen1
    obtain ⟨a1, a2, a3⟩ := hafter j
    obtain ⟨b1, b2, b3⟩ := hrow1 j
    exact ⟨by rw [a1, hfr, b1], by rw [a2, hfr, b2], by rw [a3, hfr, b3]⟩
  · intro hlen j
    have hlen1 : 2 ≤ (rowMarked n ((List.range' 0 i).foldl (fun s r => fillRow n p r s) g) i).length := by
      rw [hrm]; exact hlen
    have hmnmx : firstMarked (rowMarked n g i) < lastMarked (rowMarked n g i) :=
      first_lt_last _ (rowMarked_sorted n g i) hlen
    have hfr : fillRow n p i ((List.range' 0 i).foldl (fun s r => fillRow n p r s) g)
        = writeCellsRow p i
            (List.range' (firstMarked (rowMarked n g i) + 1)
              (lastMarked (rowMarked n g i) - (firstMarked (rowMarked n g i) + 1)))
            ((List.range' 0 i).foldl (fun s r => fillRow n p r s) g) := by
      rw [fillRow_of_long n p i _ hlen1, hrm]
    obtain ⟨w1, w2, w3⟩ := writeCellsRow_at p i
      (List.range' (firstMarked (rowMarked n g i) + 1)
        (lastMarked (rowMarked n g i) - (firstMarked (rowMarked n g i) + 1)))
      ((List.range' 0 i).foldl (fun s r => fillRow n p r s) g) i j
    have hmem : (j ∈ List.range' (firstMarked (rowMarked n g i) + 1)
        (lastMarked (rowMarked n g i) - (firstMarked (rowMarked n g i) + 1)))
        ↔ (firstMarked (rowMarked n g i) < j ∧ j < lastMarked (rowMarked n g i)) := by
      rw [List.mem_range'_1]
      omega
    obtain ⟨a1, a2, a3⟩ := hafter j
    constructor
    · rintro ⟨hj1, hj2⟩
      have hcond : i = i ∧ j ∈ List.range' (firstMarked (rowMarked n g i) + 1)
          (lastMarked (rowMarked n g i) - (firstMarked (rowMarked n g i) + 1)) :=
        ⟨rfl, hmem.mpr ⟨hj1, hj2⟩⟩
      refine ⟨?_, ?_, ?_⟩
      · rw [a1, hfr, w1, if_pos hcond]
      · rw [a2, hfr, w2, if_pos hcond]
      · rw [a3, hfr, w3, if_pos hcond]
    · intro hout
      have hcond : ¬ (i = i ∧ j ∈ List.range' (firstMarked (rowMarked n g i) + 1)
          (lastMarked (rowMarked n g i) - (firstMarked (rowMarked n g i) + 1))) := by
        rintro ⟨_, hin⟩
        rw [hmem] at hin
        omega
      obtain ⟨b1, b2, b3⟩ := hrow1 j
      refine ⟨?_, ?_, ?_⟩
      · rw [a1, hfr, w1, if_neg hcond, b1]
      · rw [a2, hfr, w2, if_neg hcond, b2]
      · rw [a3, hfr, w3, if_neg hcond, b3]

/-! Solver-level lemmas. -/

theorem jacobiX_src (sys : SystemState) (r : ℕ → ℚ) (tol : ℚ) (mi : ℕ) (k : ℕ)
    (hk : flatSources sys k = true) : jacobiX sys r tol mi k = flatPot sys k := by
  obtain ⟨nn, _, hiter⟩ := relaxLoop_iterates
    (jacobiSweep sys.Ns.toNat (flatSources sys) (flatPot sys))
    (normStopB (sys.Ns.toNat ^ 2) tol) mi
    (pinInit (flatSources sys) (flatPot sys) r)
  unfold jacobiX
  rw [hiter]
  exact jacobiSweep_iterate_src _ _ _ _ k (by simp [pinInit, hk]) hk nn

theorem gaussX_src (sys : SystemState) (G : ℕ → ℕ → ℚ) (r : ℕ → ℚ) (tol : ℚ)
    (mi : ℕ) (k : ℕ) (hk : flatSources sys k = true) :
    gaussX sys G r tol mi k = flatPot sys k := by
  obtain ⟨nn, _, hiter⟩ := relaxLoop_iterates
    (gaussSweep sys.Ns.toNat G (flatSources sys) (flatPot sys))
    (normStopB (sys.Ns.toNat ^ 2) tol) mi
    (pinInit (flatSources sys) (flatPot sys) r)
  unfold gaussX
  rw [hiter]
  exact gaussSweep_iterate_src _ _ _ _ _ k (by simp [pinInit, hk]) hk nn

theorem sorX_src (sys : SystemState) (w : ℚ) (r : ℕ → ℚ) (tol : ℚ)
    (mi : ℕ) (k : ℕ) (hk : flatSources sys k = true) :
    sorX sys w r tol mi k = flatPot sys k := by
  obtain ⟨nn, _, hiter⟩ := relaxLoop_iterates
    (sorSweep sys.Ns.toNat w (flatSources sys))
    (normStopB (sys.Ns.toNat ^ 2) tol) mi
    (pinInit (flatSources sys) (flatPot sys) r)
  unfold sorX
  rw [hiter, sorSweep_iterate_src _ _ _ _ k hk nn]
  simp [pinInit, hk]

theorem systemAdd_eqPotSP (sys : SystemState) (sh : Shape) (n : ℕ)
    (hEq : EqPotSP n sys.arr) (hsh : ShapeFaithful sh.potential sh.arr) :
    EqPotSP n (systemAdd sys sh).arr := by
  intro i j hi hj
  show sys.arr.potentials i j + sh.arr.potentials i j
      = sys.arr.source_potentials i j + sh.arr.source_potentials i j
  rw [hEq i j hi hj, shapeFaithful_eq sh.potential sh.arr hsh i j]

theorem eqPotSP_pinnedInv (n : ℕ) (g : GridArrays) (h : EqPotSP n g) :
    PinnedInv n g :=
  fun i j hi hj _ => h i j hi hj

theorem normDeltaRun_of (N : ℕ) (tol : ℚ) (mi : ℕ) (hmi : 0 < mi)
    (f : (ℕ → ℚ) → ℕ → ℚ) (x0 : ℕ → ℚ) : NormDeltaRun N tol mi f x0 := by
  obtain ⟨nn, h1, h2, h3, h4, h5⟩ := relaxLoop_char f (normStopB N tol) mi x0 hmi
  refine ⟨nn, h1, h2, h3, ?_, ?_⟩
  · intro m hm
    exact (normStopB_false_iff N tol _ _).mp (h4 m hm)
  · intro hlt
    exact (normStopB_iff N tol _ _).mp (h5 hlt)

/-! Claim theorems. -/

/-- C1: for every system in the spec's documented lifecycle (potential field
and source-potentials agree on the grid, which holds for every system
populated purely by `add` calls, starting from `new`'s zeroed arrays), and
every constructed shape with matching grid size: after `System.add` the
source-cell invariant `PotentialField[c] = SourcePotentials[c]` holds wherever
the mask is set; it also holds after every completed sweep of `jacobi`,
`gauss_seidel` and `SOR` (any number of sweeps, any random initial draw `r`,
any Gauss-Seidel inverse matrix `G`), and of the field each solver finally
stores. -/
theorem c1_source_invariant (sys : SystemState) (sh : Shape) (r : ℕ → ℚ)
    (tol w : ℚ) (mi : ℕ) (G : ℕ → ℕ → ℚ)
    (hsh : IsShape sh) (hNs : sh.Ns = sys.Ns)
    (hEq : EqPotSP sys.Ns.toNat sys.arr) :
    SourcePinnedAll sys sh r tol w mi G := by
  have hfaith : ShapeFaithful sh.potential sh.arr := isShape_faithful sh hsh
  have hEqAdd : EqPotSP sys.Ns.toNat (systemAdd sys sh).arr :=
    systemAdd_eqPotSP sys sh sys.Ns.toNat hEq hfaith
  have hflat : ∀ k, k < sys.Ns.toNat ^ 2 → flatPot sys k = flatSP sys k := by
    intro k hk
    obtain ⟨hb1, hb2⟩ := flat_bounds sys.Ns.toNat k hk
    exact hEq _ _ hb1 hb2
  refine ⟨⟨hEqAdd, eqPotSP_pinnedInv _ _ hEqAdd⟩, ?_, ?_, ?_, ?_⟩
  · intro m k hk hks
    refine ⟨?_, ?_, ?_⟩
    · rw [jacobiSweep_iterate_src _ _ _ _ k (by simp [pinInit, hks]) hks m]
      exact hflat k hk
    · rw [gaussSweep_iterate_src _ _ _ _ _ k (by simp [pinInit, hks]) hks m]
      exact hflat k hk
    · rw [sorSweep_iterate_src _ _ _ _ k hks m]
      show (if flatSources sys k = true then flatPot sys k else r k) = flatSP sys k
      rw [if_pos hks]
      exact hflat k hk
  · intro i j hi hj hsrc
    have hks : flatSources sys (i * sys.Ns.toNat + j) = true := by
      show flat2 sys.Ns.toNat sys.arr.sources (i * sys.Ns.toNat + j) = true
      rw [flat2_mk sys.Ns.toNat sys.arr.sources i j hj]
      exact hsrc
    show jacobiX sys r tol mi (i * sys.Ns.toNat + j) = sys.arr.source_potentials i j
    rw [jacobiX_src sys r tol mi _ hks]
    show flat2 sys.Ns.toNat sys.arr.potentials (i * sys.Ns.toNat + j) = _
    rw [flat2_mk sys.Ns.toNat sys.arr.potentials i j hj]
    exact hEq i j hi hj
  · intro i j hi hj hsrc
    have hks : flatSources sys (i * sys.Ns.toNat + j) = true := by
      show flat2 sys.Ns.toNat sys.arr.sources (i * sys.Ns.toNat + j) = true
      rw [flat2_mk sys.Ns.toNat sys.arr.sources i j hj]
      exact hsrc
    show gaussX sys G r tol mi (i * sys.Ns.toNat + j) = sys.arr.source_potentials i j
    rw [gaussX_src sys G r tol mi _ hks]
    show flat2 sys.Ns.toNat sys.arr.potentials (i * sys.Ns.toNat + j) = _
    rw [flat2_mk sys.Ns.toNat sys.arr.potentials i j hj]
    exact hEq i j hi hj
  · intro i j hi hj hsrc
    have hks : flatSources sys (i * sys.Ns.toNat + j) = true := by
      show flat2 sys.Ns.toNat sys.arr.sources (i * sys.Ns.toNat + j) = true
      rw [flat2_mk sys.Ns.toNat sys.arr.sources i j hj]
      exact hsrc
    show sorX sys w r tol mi (i * sys.Ns.toNat + j) = sys.arr.source_potentials i j
    rw [sorX_src sys w r tol mi _ hks]
    show flat2 sys.Ns.toNat sys.arr.potentials (i * sys.Ns.toNat + j) = _
    rw [flat2_mk sys.Ns.toNat sys.arr.potentials i j hj]
    exact hEq i j hi hj

/-- C2: each SOR sweep visits the flattened cells `k = 0, …, n²-1` in
increasing order; a cell with the source mask set is never written at any
point of the sweep (first conjunct, quantified over every intermediate state
of the sweep); any other cell ends the sweep holding
`(1-w)·x[k] + (w/D[k])·(b[k] - s1 - s2)` where `s1` reads the already-updated
values of cells below `k` (which the completed sweep still holds, since later
steps only write higher cells) and `s2` reads the still-original values of
cells above `k` — exactly the current in-progress vector of the source. -/
theorem c2_sor_sweep (n : ℕ) (w : ℚ) (srcs : ℕ → Bool) (x : ℕ → ℚ) (k : ℕ)
    (hk : k < n ^ 2) :
    (srcs k = true →
      (∀ m, sorSweepAux n w srcs x m k = x k) ∧ sorSweep n w srcs x k = x k) ∧
    (srcs k = false →
      sorSweep n w srcs x k =
        (1 - w) * x k + (w / Ddiag n k) *
          (bvec k - (∑ j ∈ Finset.range k, Lmat n k j * sorSweep n w srcs x j)
                  - (∑ j ∈ Finset.Ico (k + 1) (n ^ 2), Umat n k j * x j))) := by
  constructor
  · intro h
    exact ⟨sorSweepAux_src n w srcs x k h, sorSweep_src n w srcs x k h⟩
  · intro h
    exact sorSweep_formula n w srcs x k hk h

/-- C3 (amended): for every grid side `n ≥ 1` and flattened index `i < n²`,
the matrix built by `create_method_matrix` has `A[i,i] = -4`, every
off-diagonal entry of row `i` is `0` or `1`, and the number of off-diagonal
`+1` entries equals the number of in-bounds cardinal neighbours of cell
`(i div n, i mod n)` (out-of-bounds neighbours contribute no entry).  The
claimed per-category counts (interior 4, edge 3, corner 2) hold for every
`n ≥ 2`; for `n = 1` the single cell is a corner with 0 entries (see the
counterexample). -/
theorem c3_stencil_amended (n : ℕ) (hn : 1 ≤ n) (i : ℕ) (hi : i < n ^ 2) :
    Amatrix n i i = -4 ∧
    offDiagOnes n i = neighborCount n ((i / n : ℕ) : ℤ) ((i % n : ℕ) : ℤ) ∧
    (∀ j, j ≠ i → Amatrix n i j = 0 ∨ Amatrix n i j = 1) ∧
    (2 ≤ n →
      (isInterior n (i / n) (i % n) → offDiagOnes n i = 4) ∧
      (isEdge n (i / n) (i % n) → offDiagOnes n i = 3) ∧
      (isCorner n (i / n) (i % n) → offDiagOnes n i = 2)) := by
  refine ⟨Amatrix_diag n i, ?_, ?_, ?_⟩
  · rw [offDiagOnes_eq_nbrInd n hn i hi, neighborCount_eq_nbrInd n hn i hi]
  · intro j hij
    unfold Amatrix
    rw [if_neg (fun hh => hij hh.symm)]
    split_ifs with h
    · right; rfl
    · left; rfl
  · intro hn2
    refine ⟨?_, ?_, ?_⟩
    · intro h
      rw [offDiagOnes_eq_nbrInd n hn i hi]
      exact nbrInd_interior n i hi h
    · intro h
      rw [offDiagOnes_eq_nbrInd n hn i hi]
      exact nbrInd_edge n i hn2 hi h
    · intro h
      rw [offDiagOnes_eq_nbrInd n hn i hi]
      exact nbrInd_corner n i hn2 hi h

/-- C3 counterexample: on the `1 × 1` grid the unique flattened cell `0` is a
corner cell (both of its grid coordinates lie on the boundary, `0 = 0` and
`0 + 1 = 1`), yet its matrix row has `0` off-diagonal `+1` entries, not the
`2` the claim asserts for every corner cell of every positive `Ns`. -/
theorem c3_corner_counterexample :
    isCorner 1 (0 / 1) (0 % 1) ∧ Amatrix 1 0 0 = -4 ∧ offDiagOnes 1 0 = 0 := by
  refine ⟨⟨Or.inl rfl, Or.inl rfl⟩, by norm_num [Amatrix], ?_⟩
  decide

/-- C4: for all three relaxation methods, any non-negative tolerance and any
positive sweep budget: the loop stops right after the first sweep for which
the absolute difference of the Euclidean norms taken before and after that
sweep is strictly below `tol`, or after `max_iter` sweeps, whichever comes
first, and the stored result is always an integral number of complete sweeps
(never a partial sweep).  The last three conjuncts of `StoppingRuleAll` tie
the generic loop to the three solver entry points. -/
theorem c4_stopping_rule (tol : ℚ) (mi : ℕ) (hmi : 0 < mi) (htol : 0 ≤ tol)
    (sys : SystemState) (r : ℕ → ℚ) (w : ℚ) (G : ℕ → ℕ → ℚ) :
    StoppingRuleAll tol mi sys r w G :=
  ⟨normDeltaRun_of _ tol mi hmi _ _, normDeltaRun_of _ tol mi hmi _ _,
   normDeltaRun_of _ tol mi hmi _ _, rfl, rfl, rfl⟩

/-- C5 (amended): adding two constructed shape regions `r1`, `r2` of matching
grid size to a system whose potential field and source-potentials are zero at
an overlap cell (as in any system that has not yet received a source covering
that cell — in particular a fresh one) leaves that cell holding potential
`p1 + p2` and source-potentials `p1 + p2`; the mask is, unconditionally at
every cell, the logical or of the previous mask and the two regions' masks.
Without the zero-at-overlap premise the increments land on top of whatever
the cell already held (see the counterexample). -/
theorem c5_additive_overlap (sys : SystemState) (r1 r2 : Shape) (a b : ℕ)
    (h1 : IsShape r1) (h2 : IsShape r2)
    (hNs1 : r1.Ns = sys.Ns) (hNs2 : r2.Ns = sys.Ns)
    (hs1 : r1.arr.sources a b = true) (hs2 : r2.arr.sources a b = true)
    (hp0 : sys.arr.potentials a b = 0) (hq0 : sys.arr.source_potentials a b = 0) :
    (systemAdd (systemAdd sys r1) r2).arr.potentials a b
      = r1.potential + r2.potential ∧
    (systemAdd (systemAdd sys r1) r2).arr.source_potentials a b
      = r1.potential + r2.potential ∧
    (∀ i j, (systemAdd (systemAdd sys r1) r2).arr.sources i j
      = (sys.arr.sources i j || r1.arr.sources i j || r2.arr.sources i j)) := by
  obtain ⟨hp1, hq1⟩ := (isShape_faithful r1 h1 a b).1 hs1
  obtain ⟨hp2, hq2⟩ := (isShape_faithful r2 h2 a b).1 hs2
  refine ⟨?_, ?_, fun i j => rfl⟩
  · show sys.arr.potentials a b + r1.arr.potentials a b + r2.arr.potentials a b = _
    rw [hp0, hp1, hp2, zero_add]
  · show sys.arr.source_potentials a b + r1.arr.source_potentials a b
        + r2.arr.source_potentials a b = _
    rw [hq0, hq1, hq2, zero_add]

/-- C5 counterexample: on a system that already holds a source of potential 5
at the overlap cell, adding regions of potentials 1 and 2 leaves the cell at
`5 + 1 + 2 = 8`, not the `1 + 2 = 3` the claim asserts for every system. -/
theorem c5_overlap_counterexample :
    (ptShape 1).arr.sources 0 0 = true ∧
    (ptShape 2).arr.sources 0 0 = true ∧
    (systemAdd (systemAdd (systemAdd (mkSystem 1) (ptShape 5)) (ptShape 1))
      (ptShape 2)).arr.potentials 0 0 = 8 ∧
    (8 : ℚ) ≠ (ptShape 1).potential + (ptShape 2).potential := by
  refine ⟨rfl, rfl, ?_, by norm_num [ptShape]⟩
  show (0 : ℚ) + 5 + 1 + 2 = 8
  norm_num

/-- C6: one Jacobi sweep is the matrix update `x ← T·x_old + D⁻¹·b` (followed
by the source re-pin), where `T = -D⁻¹(L+U)` entrywise, `D⁻¹` is certified as
the genuine two-sided inverse of the diagonal matrix `D`, and `b` is the
all-zero vector throughout.  Every cell's update reads only the old vector
`x` (the right-hand sides mention no partially updated entry), and the whole
pipeline evaluates to the explicit stencil form
`(Σ_{j≠k} A[k,j]·x_old[j]) / 4`. -/
theorem c6_jacobi_update (n : ℕ) (srcs : ℕ → Bool) (orig x : ℕ → ℚ) (k : ℕ)
    (hk : k < n ^ 2) :
    jacobiSweep n srcs orig x k
      = (if srcs k then orig k
         else matVecQ (n ^ 2) (Tjac n) x k + matVecQ (n ^ 2) (DmatInv n) bvec k) ∧
    (∀ a c, Tjac n a c
      = -(matMulQ (n ^ 2) (DmatInv n) (fun a2 b2 => Lmat n a2 b2 + Umat n a2 b2) a c)) ∧
    (∀ a c, a < n ^ 2 →
      matMulQ (n ^ 2) (Dmat n) (DmatInv n) a c = if a = c then 1 else 0) ∧
    (∀ j, bvec j = 0) ∧
    jacobiRaw n x k = (∑ j ∈ (Finset.range (n ^ 2)).erase k, Amatrix n k j * x j) / 4 :=
  ⟨rfl, fun _ _ => rfl, fun a c ha => Dmat_mul_DmatInv n a c ha, fun _ => rfl,
   jacobiRaw_eq n x k hk⟩

/-- C7 (amended): `System.__init__` rejects every non-integer argument (the
`assert type(Ns) == int`) and fails for `Ns = 0` (`ZeroDivisionError` from
`1./Ns`); every positive integer succeeds with zeroed `Ns × Ns` arrays — but
every negative integer also succeeds (numpy sizes `mgrid` by the absolute
value of the complex step), rather than failing as the claim asserts. -/
theorem c7_new_behaviour (z : ℤ) (hz : z ≠ 0) :
    (∀ q : ℚ, systemNew (PyNum.float q) = Except.error "Ns should be an integer") ∧
    systemNew (PyNum.int 0) = Except.error "ZeroDivisionError" ∧
    systemNew (PyNum.int z) = Except.ok (mkSystem z) ∧
    (mkSystem z).Ns = z ∧
    (∀ i j, (mkSystem z).arr.potentials i j = 0 ∧
            (mkSystem z).arr.sources i j = false ∧
            (mkSystem z).arr.source_potentials i j = 0) := by
  refine ⟨fun q => rfl, rfl, ?_, rfl, fun i j => ⟨rfl, rfl, rfl⟩⟩
  show (if z = 0 then Except.error "ZeroDivisionError" else Except.ok (mkSystem z))
      = Except.ok (mkSystem z)
  rw [if_neg hz]

/-- C7 counterexample: `System(-1)` succeeds (no exception is raised),
contradicting the claim that construction fails for every negative integer. -/
theorem c7_negative_counterexample :
    exceptIsOk (systemNew (PyNum.int (-1))) = true := rfl

/-- C8 (amended): for a shape request with positional size arguments that
`add_source` does not implement, no cell is marked and no exception is raised
(the arrays are returned unchanged); but the `not_implemented_message`
diagnostic is printed only when the shape name is `"rectangle"` or
`"circle"` (with the wrong argument count) — an unrecognized shape name
falls through both branches silently, with no diagnostic (see the
counterexample). -/
theorem c8_unsupported (n : ℕ) (p : ℚ) (pc : ℕ × ℕ) (outline : List (ℕ × ℕ))
    (call : AddSourceCall) (g : GridArrays) (h0 : 1 ≤ call.nargs)
    (hr : ¬ (call.shape = "rectangle" ∧ call.nargs = 2))
    (hc : ¬ (call.shape = "circle" ∧ call.nargs = 1)) :
    (addSource n p pc outline call g).1 = g ∧
    ((addSource n p pc outline call g).2 = true
      ↔ (call.shape = "rectangle" ∨ call.shape = "circle")) := by
  unfold addSource
  rw [if_neg (by omega : ¬ call.nargs = 0)]
  by_cases hrec : call.shape = "rectangle"
  · rw [if_pos hrec, if_neg (fun hcon => hr ⟨hrec, hcon⟩)]
    exact ⟨rfl, by simp [hrec]⟩
  · rw [if_neg hrec]
    by_cases hcir : call.shape = "circle"
    · rw [if_pos hcir, if_neg (fun hcon => hc ⟨hcir, hcon⟩)]
      exact ⟨rfl, by simp [hcir]⟩
    · rw [if_neg hcir]
      exact ⟨rfl, by simp [hrec, hcir]⟩

/-- C8 counterexample: a request for shape `"triangle"` with one positional
argument has no rasterization; `add_source` indeed leaves the arrays
untouched, but emits no diagnostic (the flag is `false`), contradicting the
claim that every unsupported request produces a diagnostic message. -/
theorem c8_silent_counterexample :
    (addSource 3 1 (0, 0) [] ⟨"triangle", 1, true⟩ zeroArrays).1 = zeroArrays ∧
    (addSource 3 1 (0, 0) [] ⟨"triangle", 1, true⟩ zeroArrays).2 = false :=
  ⟨rfl, rfl⟩

/-- C10: each of the three solvers leaves the source mask and the
source-potentials array exactly as they were (and the stored grid dimension);
only the potential field, the rebuilt matrix `A` and the boundary bookkeeping
are written by a solve. -/
theorem c10_solver_frame (sys : SystemState) (r : ℕ → ℚ) (tol w : ℚ) (mi : ℕ)
    (G : ℕ → ℕ → ℚ) :
    (jacobiSolve sys r tol mi).arr.sources = sys.arr.sources ∧
    (jacobiSolve sys r tol mi).arr.source_potentials = sys.arr.source_potentials ∧
    (jacobiSolve sys r tol mi).Ns = sys.Ns ∧
    (gaussSolve sys G r tol mi).arr.sources = sys.arr.sources ∧
    (gaussSolve sys G r tol mi).arr.source_potentials = sys.arr.source_potentials ∧
    (gaussSolve sys G r tol mi).Ns = sys.Ns ∧
    (sorSolve sys w r tol mi).arr.sources = sys.arr.sources ∧
    (sorSolve sys w r tol mi).arr.source_potentials = sys.arr.source_potentials ∧
    (sorSolve sys w r tol mi).Ns = sys.Ns :=
  ⟨rfl, rfl, rfl, rfl, rfl, rfl, rfl, rfl, rfl⟩

/-! Witnesses: each claim theorem with hypotheses, applied at a concrete
input with every hypothesis discharged. -/

theorem c1_source_invariant_witness :
    IsShape (ptShape 5) ∧ (ptShape 5).Ns = (mkSystem 1).Ns ∧
    EqPotSP (mkSystem 1).Ns.toNat (mkSystem 1).arr ∧
    SourcePinnedAll (mkSystem 1) (ptShape 5) (fun _ => 0) 1 1 1 (fun _ _ => 0) :=
  ⟨⟨[ShapeOp.mark (0, 0)], rfl⟩, rfl, fun _ _ _ _ => rfl,
   c1_source_invariant (mkSystem 1) (ptShape 5) (fun _ => 0) 1 1 1 (fun _ _ => 0)
     ⟨[ShapeOp.mark (0, 0)], rfl⟩ rfl (fun _ _ _ _ => rfl)⟩

theorem c2_sor_sweep_witness :
    (0 : ℕ) < 1 ^ 2 ∧
    ((false = true →
        (∀ m, sorSweepAux 1 2 (fun _ => false) (fun _ => (3 : ℚ)) m 0 = 3) ∧
        sorSweep 1 2 (fun _ => false) (fun _ => (3 : ℚ)) 0 = 3) ∧
     (false = false →
        sorSweep 1 2 (fun _ => false) (fun _ => (3 : ℚ)) 0 =
          (1 - 2) * 3 + (2 / Ddiag 1 0) *
            (bvec 0
              - (∑ j ∈ Finset.range 0,
                  Lmat 1 0 j * sorSweep 1 2 (fun _ => false) (fun _ => (3 : ℚ)) j)
              - (∑ j ∈ Finset.Ico (0 + 1) (1 ^ 2), Umat 1 0 j * 3)))) :=
  ⟨by norm_num, c2_sor_sweep 1 2 (fun _ => false) (fun _ => 3) 0 (by norm_num)⟩

theorem c3_stencil_amended_witness :
    1 ≤ 2 ∧ (0 : ℕ) < 2 ^ 2 ∧
    (Amatrix 2 0 0 = -4 ∧
     offDiagOnes 2 0 = neighborCount 2 ((0 / 2 : ℕ) : ℤ) ((0 % 2 : ℕ) : ℤ) ∧
     (∀ j, j ≠ 0 → Amatrix 2 0 j = 0 ∨ Amatrix 2 0 j = 1) ∧
     (2 ≤ 2 →
       (isInterior 2 (0 / 2) (0 % 2) → offDiagOnes 2 0 = 4) ∧
       (isEdge 2 (0 / 2) (0 % 2) → offDiagOnes 2 0 = 3) ∧
       (isCorner 2 (0 / 2) (0 % 2) → offDiagOnes 2 0 = 2))) :=
  ⟨by norm_num, by norm_num, c3_stencil_amended 2 (by norm_num) 0 (by norm_num)⟩

theorem c4_stopping_rule_witness :
    (0 : ℕ) < 1 ∧ (0 : ℚ) ≤ 1 ∧
    StoppingRuleAll 1 1 (mkSystem 1) (fun _ => 0) 1 (fun _ _ => 0) :=
  ⟨Nat.one_pos, by norm_num,
   c4_stopping_rule 1 1 Nat.one_pos (by norm_num) (mkSystem 1) (fun _ => 0) 1
     (fun _ _ => 0)⟩

theorem c5_additive_overlap_witness :
    IsShape (ptShape 1) ∧ IsShape (ptShape 2) ∧
    (ptShape 1).Ns = (mkSystem 1).Ns ∧ (ptShape 2).Ns = (mkSystem 1).Ns ∧
    (ptShape 1).arr.sources 0 0 = true ∧ (ptShape 2).arr.sources 0 0 = true ∧
    (mkSystem 1).arr.potentials 0 0 = 0 ∧
    (mkSystem 1).arr.source_potentials 0 0 = 0 ∧
    ((systemAdd (systemAdd (mkSystem 1) (ptShape 1)) (ptShape 2)).arr.potentials 0 0
       = (ptShape 1).potential + (ptShape 2).potential ∧
     (systemAdd (systemAdd (mkSystem 1) (ptShape 1)) (ptShape 2)).arr.source_potentials 0 0
       = (ptShape 1).potential + (ptShape 2).potential ∧
     (∀ i j, (systemAdd (systemAdd (mkSystem 1) (ptShape 1)) (ptShape 2)).arr.sources i j
       = ((mkSystem 1).arr.sources i j || (ptShape 1).arr.sources i j
           || (ptShape 2).arr.sources i j))) :=
  ⟨⟨[ShapeOp.mark (0, 0)], rfl⟩, ⟨[ShapeOp.mark (0, 0)], rfl⟩, rfl, rfl, rfl, rfl,
   rfl, rfl,
   c5_additive_overlap (mkSystem 1) (ptShape 1) (ptShape 2) 0 0
     ⟨[ShapeOp.mark (0, 0)], rfl⟩ ⟨[ShapeOp.mark (0, 0)], rfl⟩ rfl rfl rfl rfl rfl rfl⟩

theorem c6_jacobi_update_witness :
    (0 : ℕ) < 1 ^ 2 ∧
    (jacobiSweep 1 (fun _ => false) (fun _ => 0) (fun _ => (2 : ℚ)) 0
       = (if (false : Bool) then (0 : ℚ)
          else matVecQ (1 ^ 2) (Tjac 1) (fun _ => (2 : ℚ)) 0
               + matVecQ (1 ^ 2) (DmatInv 1) bvec 0) ∧
     (∀ a c, Tjac 1 a c
       = -(matMulQ (1 ^ 2) (DmatInv 1) (fun a2 b2 => Lmat 1 a2 b2 + Umat 1 a2 b2) a c)) ∧
     (∀ a c, a < 1 ^ 2 →
       matMulQ (1 ^ 2) (Dmat 1) (DmatInv 1) a c = if a = c then 1 else 0) ∧
     (∀ j, bvec j = 0) ∧
     jacobiRaw 1 (fun _ => (2 : ℚ)) 0
       = (∑ j ∈ (Finset.range (1 ^ 2)).erase 0, Amatrix 1 0 j * 2) / 4) :=
  ⟨by norm_num,
   c6_jacobi_update 1 (fun _ => false) (fun _ => 0) (fun _ => 2) 0 (by norm_num)⟩

theorem c7_new_behaviour_witness :
    (3 : ℤ) ≠ 0 ∧
    ((∀ q : ℚ, systemNew (PyNum.float q) = Except.error "Ns should be an integer") ∧
     systemNew (PyNum.int 0) = Except.error "ZeroDivisionError" ∧
     systemNew (PyNum.int 3) = Except.ok (mkSystem 3) ∧
     (mkSystem 3).Ns = 3 ∧
     (∀ i j, (mkSystem 3).arr.potentials i j = 0 ∧
             (mkSystem 3).arr.sources i j = false ∧
             (mkSystem 3).arr.source_potentials i j = 0)) :=
  ⟨by decide, c7_new_behaviour 3 (by decide)⟩

theorem c8_unsupported_witness :
    1 ≤ 3 ∧ ¬ ((("rectangle" : String) = "rectangle") ∧ (3 : ℕ) = 2) ∧
    ¬ ((("rectangle" : String) = "circle") ∧ (3 : ℕ) = 1) ∧
    ((addSource 4 1 (0, 0) [] ⟨"rectangle", 3, true⟩ zeroArrays).1 = zeroArrays ∧
     ((addSource 4 1 (0, 0) [] ⟨"rectangle", 3, true⟩ zeroArrays).2 = true
       ↔ ((("rectangle" : String) = "rectangle") ∨ (("rectangle" : String) = "circle")))) :=
  ⟨by norm_num, by simp, by simp,
   c8_unsupported 4 1 (0, 0) [] ⟨"rectangle", 3, true⟩ zeroArrays (by norm_num)
     (by simp) (by simp)⟩

theorem c9_scanline_fill_witness :
    (0 : ℕ) < 1 ∧
    (((rowMarked 1 zeroArrays 0).length ≤ 1 →
      ∀ j, (fillOp 1 7 zeroArrays).potentials 0 j = zeroArrays.potentials 0 j ∧
           (fillOp 1 7 zeroArrays).sources 0 j = zeroArrays.sources 0 j ∧
           (fillOp 1 7 zeroArrays).source_potentials 0 j
             = zeroArrays.source_potentials 0 j) ∧
    (2 ≤ (rowMarked 1 zeroArrays 0).length →
      ∀ j, (firstMarked (rowMarked 1 zeroArrays 0) < j ∧
              j < lastMarked (rowMarked 1 zeroArrays 0) →
              (fillOp 1 7 zeroArrays).potentials 0 j = 7 ∧
              (fillOp 1 7 zeroArrays).sources 0 j = true ∧
              (fillOp 1 7 zeroArrays).source_potentials 0 j = 7) ∧
           (j ≤ firstMarked (rowMarked 1 zeroArrays 0) ∨
              lastMarked (rowMarked 1 zeroArrays 0) ≤ j →
              (fillOp 1 7 zeroArrays).potentials 0 j = zeroArrays.potentials 0 j ∧
              (fillOp 1 7 zeroArrays).sources 0 j = zeroArrays.sources 0 j ∧
              (fillOp 1 7 zeroArrays).source_potentials 0 j
                = zeroArrays.source_potentials 0 j))) :=
  ⟨Nat.one_pos, c9_scanline_fill 1 7 zeroArrays 0 Nat.one_pos⟩

end LaplaceRelax
